import Mathlib

/-!
# Streaming token-to-speech pipeline: a verification development

This file embeds the core of the repository's streaming pipeline in Lean:

* sentence segmentation of an incrementally generated text stream
  (`StreamingLLM._extract_sentences` and the `generate_stream` ingestion
  loop in `services/llm.py`);
* the text sanitiser `clean_text_for_tts` (`services/llm.py`);
* mono→stereo PCM upmixing and its streaming driver
  (`HybridTTSService._mono_to_stereo` and the `raw_pcm` branch of
  `synthesize_stream_async` in `services/tts_hybrid.py`);
* Hindi number-to-word rewriting (`convert_numbers_to_hindi_words` in
  `services/tts_hybrid.py`);
* WAV header framing and the bounded producer/consumer delivery pipeline
  of the voice endpoints (`server.py`);
* the error containment of `PiperTTS.synthesize_stream`
  (`services/tts.py`) and the Edge-TTS fallback path.

Text is modelled as `List Char`; byte buffers as `List Nat`, one byte per
entry.  Python's regex class `\s` and `str.strip()` are modelled on their
ASCII core (space, tab, newline, carriage return, vertical tab, form feed);
every concrete input considered below is ASCII, where the two coincide.
Recursions that mirror Python `while` loops or regex scans carry an explicit
fuel argument; callers pass the input length, which always suffices because
every recursive call consumes at least one character and one unit of fuel,
so the fuel-exhausted branch is unreachable from the wrappers.
-/

namespace Pipeline

/-- ASCII core of Python's whitespace (`\s` in `re`, `str.strip()`). -/
def pySpace (c : Char) : Bool :=
  c = ' ' || c = '\t' || c = '\n' || c = '\r' || c = '\x0b' || c = '\x0c'

/-- The character class `[.!?]` of `StreamingLLM.sentence_endings`
(`services/llm.py`, line 52). -/
def isTerminalPunct (c : Char) : Bool :=
  c = '.' || c = '!' || c = '?'

/-- Python `str.strip()` on its ASCII core: remove the leading and the
trailing whitespace run. -/
def pyStrip (s : List Char) : List Char :=
  ((s.dropWhile pySpace).reverse.dropWhile pySpace).reverse

/-! ## Sentence segmenter (`services/llm.py`)

`StreamingLLM._extract_sentences` runs `finditer` of the regex
`([.!?])\s+` over the buffer and splits at `last_match.end()`.  Since the
whitespace run of a match can never contain a terminal-punctuation
character, every position where a `[.!?]` character is followed by
whitespace starts a match, its `\s+` greedily consuming the maximal
whitespace run; hence `last_match.end()` is the end of the whitespace run
following the last punctuation-then-whitespace position.  The scan below
computes exactly that split. -/

/-- Split `s` at the end of the last `([.!?])\s+` match: returns the prefix
up to and including that match's whitespace run, and the remainder; `none`
when the pattern does not occur. -/
def splitLastBoundaryGo : Nat → List Char → Option (List Char × List Char)
  | 0, _ => none
  | _ + 1, [] => none
  | fuel + 1, c :: rest =>
    if isTerminalPunct c && (match rest.head? with
        | some d => pySpace d
        | none => false) then
      let ws := rest.takeWhile pySpace
      let rest' := rest.dropWhile pySpace
      match splitLastBoundaryGo fuel rest' with
      | some (p, r) => some (c :: (ws ++ p), r)
      | none => some (c :: ws, rest')
    else
      match splitLastBoundaryGo fuel rest with
      | some (p, r) => some (c :: p, r)
      | none => none

/-- Wrapper passing sufficient fuel. -/
def splitLastBoundary (s : List Char) : Option (List Char × List Char) :=
  splitLastBoundaryGo s.length s

/-- `StreamingLLM._extract_sentences` (`services/llm.py`, lines 201–229):
the emitted sentence list and the updated buffer.  With no match the buffer
is unchanged; otherwise the text up to the last boundary is stripped and
appended as a single entry (when non-empty), and the stripped remainder
becomes the new buffer. -/
def extractSentences (text : List Char) : List (List Char) × List Char :=
  match splitLastBoundary text with
  | none => ([], text)
  | some (pre, rem) =>
    let completeText := pyStrip pre
    ((if completeText.isEmpty then [] else [completeText]), pyStrip rem)

/-- One ingestion step of `StreamingLLM.generate_stream` (lines 174–186):
`sentence_buffer += content`, then `_extract_sentences`. -/
def ingest (buf delta : List Char) : List (List Char) × List Char :=
  extractSentences (buf ++ delta)

/-- Run the ingestion loop over a delta sequence from a given buffer,
collecting every emitted sentence in order. -/
def runDeltasFrom (buf : List Char) : List (List Char) → List (List Char) × List Char
  | [] => ([], buf)
  | d :: ds =>
    let step := ingest buf d
    let restRun := runDeltasFrom step.2 ds
    (step.1 ++ restRun.1, restRun.2)

/-- The ingestion loop started from the empty buffer
(`generate_stream` sets `self.sentence_buffer = ""` on entry). -/
def runDeltas (deltas : List (List Char)) : List (List Char) × List Char :=
  runDeltasFrom [] deltas

/-- End-of-stream flush (`generate_stream`, lines 158–165): the remaining
buffer is stripped and emitted only when non-empty.  (The sanitiser that
`generate_stream` applies to each emitted sentence before yielding is the
separate stage `cleanTextForTts`; segmentation is modelled at the
pre-sanitiser level, as in the spec's data flow Segmenter → Sanitizer.) -/
def flushBuffer (buf : List Char) : List (List Char) :=
  if (pyStrip buf).isEmpty then [] else [pyStrip buf]

/-- Every sentence a delta sequence produces: ingestion emissions, then the
flush of the final buffer. -/
def segmentDeltas (deltas : List (List Char)) : List (List Char) :=
  (runDeltas deltas).1 ++ flushBuffer (runDeltas deltas).2

/-! ## Mono→stereo upmix (`HybridTTSService._mono_to_stereo`,
`services/tts_hybrid.py`, lines 128–140)

The source decodes the buffer as 16-bit signed little-endian samples
(`array.array('h', mono_data)`), appends every sample once to the left and
once to the right channel, and re-encodes (`tobytes()`).  `array.array`
raises on a buffer of odd length; every call site passes an even number of
bytes, on which the total functions below agree with the source. -/

/-- One 16-bit signed little-endian sample from two bytes. -/
def decodeS16 (lo hi : Nat) : Int :=
  if lo + 256 * hi < 32768 then ((lo + 256 * hi : Nat) : Int)
  else ((lo + 256 * hi : Nat) : Int) - 65536

/-- Decode a byte buffer into its 16-bit samples (`array.array('h', ...)`). -/
def bytesToSamples : List Nat → List Int
  | lo :: hi :: rest => decodeS16 lo hi :: bytesToSamples rest
  | _ => []

/-- Re-encode 16-bit samples as little-endian bytes (`tobytes()`). -/
def samplesToBytes : List Int → List Nat
  | [] => []
  | s :: rest => (s % 65536).toNat % 256 :: (s % 65536).toNat / 256 :: samplesToBytes rest

/-- The duplication loop of `_mono_to_stereo`: every sample is appended to
the left channel and then to the right channel. -/
def duplicateSamples : List Int → List Int
  | [] => []
  | s :: rest => s :: s :: duplicateSamples rest

/-- `HybridTTSService._mono_to_stereo`: decode, duplicate, re-encode. -/
def monoToStereo (monoData : List Nat) : List Nat :=
  samplesToBytes (duplicateSamples (bytesToSamples monoData))

/-- The 16-bit sample at sample index `i` of a little-endian byte buffer. -/
def sampleAt (bs : List Nat) (i : Nat) : Int :=
  decodeS16 (bs.getD (2 * i) 0) (bs.getD (2 * i + 1) 0)

/-! ## Streaming upmix driver (`synthesize_stream_async`, `raw_pcm` branch,
`services/tts_hybrid.py`, lines 318–347)

Mono bytes accumulate in `mono_buffer`; while at least `chunk_size = 4096`
bytes are buffered, an even `process_size`-byte prefix is upmixed and
yielded; after the input ends, a final even-length prefix of the remainder
is upmixed and yielded. -/

/-- The `while len(mono_buffer) >= chunk_size` drain loop (lines 330–338):
yielded stereo chunks and the remaining buffer.  Fuel as above (each
iteration consumes 4096 bytes). -/
def drainBufferGo : Nat → List Nat → List (List Nat) × List Nat
  | 0, buf => ([], buf)
  | fuel + 1, buf =>
    if 4096 ≤ buf.length then
      let processSize := if 4096 % 2 = 0 then 4096 else 4096 - 1
      let monoData := buf.take processSize
      let step := drainBufferGo fuel (buf.drop processSize)
      (monoToStereo monoData :: step.1, step.2)
    else ([], buf)

/-- Drain with sufficient fuel. -/
def drainBuffer (buf : List Nat) : List (List Nat) × List Nat :=
  drainBufferGo buf.length buf

/-- Feed the incoming mono chunks: `mono_buffer.extend(mono_chunk)` then the
drain loop, across the whole input stream (lines 326–338). -/
def feedChunks (buf : List Nat) : List (List Nat) → List (List Nat) × List Nat
  | [] => ([], buf)
  | c :: cs =>
    let step := drainBuffer (buf ++ c)
    let restRun := feedChunks step.2 cs
    (step.1 ++ restRun.1, restRun.2)

/-- The tail flush (lines 340–347): when at least two bytes remain, upmix an
even-length prefix; a final odd byte is left unprocessed. -/
def finalFlush (buf : List Nat) : List (List Nat) :=
  if 2 ≤ buf.length then
    let processSize := if buf.length % 2 = 0 then buf.length else buf.length - 1
    if 0 < processSize then [monoToStereo (buf.take processSize)] else []
  else []

/-- The full `raw_pcm` streaming path over a mono chunk stream. -/
def rawPcmStream (chunks : List (List Nat)) : List (List Nat) :=
  (feedChunks [] chunks).1 ++ finalFlush (feedChunks [] chunks).2

/-! ## WAV streaming header and the session byte stream
(`voice_interaction.audio_stream_generator`, `server.py`, lines 2101–2163) -/

/-- `struct.pack('<I', n)`: four little-endian bytes. -/
def pack32 (n : Nat) : List Nat :=
  [n % 256, n / 256 % 256, n / 65536 % 256, n / 16777216 % 256]

/-- `struct.pack('<H', n)`: two little-endian bytes. -/
def pack16 (n : Nat) : List Nat :=
  [n % 256, n / 256 % 256]

/-- The ASCII bytes of a tag such as `b'RIFF'`. -/
def fourCC (s : List Char) : List Nat :=
  s.map (fun c => c.toNat)

/-- The streaming WAV header of lines 2106–2115: sample rate 22050, 2
channels, 16 bits per sample, RIFF size `0x7FFFFFFF - 8` and data size
`0x7FFFFFFF` as streaming sentinels (the true length is unknown). -/
def wavStreamHeader : List Nat :=
  fourCC "RIFF".toList ++ pack32 (0x7FFFFFFF - 8) ++ fourCC "WAVE".toList ++
  fourCC "fmt ".toList ++ pack32 16 ++ pack16 1 ++ pack16 2 ++ pack32 22050 ++
  pack32 (22050 * 2 * 16 / 8) ++ pack16 (2 * 16 / 8) ++ pack16 16 ++
  fourCC "data".toList ++ pack32 0x7FFFFFFF

/-- `warmup_bytes = int(22050 * 0.05) * block_align` (lines 2117–2118);
`int` truncates `1102.5` to `1102`, matched by natural division. -/
def warmupBytes : Nat := 22050 * 5 / 100 * (2 * 16 / 8)

/-- The chunk sequence `audio_stream_generator` emits: the header once,
then (because `warmup_bytes` is non-zero) the warm-up silence, then the
audio chunks of the consumer loop in order. -/
def audioStreamChunks (audio : List (List Nat)) : List (List Nat) :=
  wavStreamHeader ::
    ((if warmupBytes = 0 then [] else [List.replicate warmupBytes 0]) ++ audio)

/-- The consumer loop (lines 2138–2154): for each queued sentence, the
synthesised audio chunks are yielded in order. -/
def consumeSentences (synth : List Char → List (List Nat))
    (sentences : List (List Char)) : List (List Nat) :=
  (sentences.map synth).flatten

/-- One whole session's emitted chunk sequence, given the synthesiser and
the sentences the producer queues. -/
def sessionStream (synth : List Char → List (List Nat))
    (sentences : List (List Char)) : List (List Nat) :=
  audioStreamChunks (consumeSentences synth sentences)

/-! ## Bounded delivery queue (`server.py`, lines 2124–2154 and 2549–2572)

`sentence_queue = asyncio.Queue(maxsize=5)`.  `await queue.put(x)` suspends
while the queue holds `maxsize` items and appends otherwise; `await
queue.get()` removes the oldest item, suspending on an empty queue.  The
labelled transition system below models one session: `pending` holds the
sentences the producer has yet to put, `queue` the queue contents. -/

structure QueueState where
  pending : List (List Char)
  queue : List (List Char)

/-- Transition labels: a producer `put` or a consumer `get`. -/
inductive QueueLabel where
  | put
  | get

/-- `asyncio.Queue(maxsize=5)` semantics: `put` fires only when fewer than
five items are queued (otherwise the producer stays suspended); `get` fires
only on a non-empty queue. -/
inductive QueueStep : QueueLabel → QueueState → QueueState → Prop
  | put {x : List Char} {p q : List (List Char)} :
      q.length < 5 → QueueStep QueueLabel.put ⟨x :: p, q⟩ ⟨p, q ++ [x]⟩
  | get {x : List Char} {p q : List (List Char)} :
      QueueStep QueueLabel.get ⟨p, x :: q⟩ ⟨p, q⟩

/-- A step with either label. -/
def queueStepAny (s s' : QueueState) : Prop :=
  ∃ l, QueueStep l s s'

/-- States reachable from the session start: every sentence still pending,
queue empty (`asyncio.Queue(maxsize=5)` starts empty). -/
def QueueReachable (init : List (List Char)) (s : QueueState) : Prop :=
  Relation.ReflTransGen queueStepAny ⟨init, []⟩ s

/-! ## Error containment (`PiperTTS.synthesize_stream`, `services/tts.py`,
lines 47–115, and `_edge_tts_synthesize_stream`,
`services/tts_hybrid.py`, lines 142–224)

The interaction with a backend subprocess is modelled as the sequence of
events the read loop observes: a data chunk, or an exception raised by the
interaction.  The spawn itself may also raise, modelled by `Except` around
the event list.  A Python exception value is modelled as a `String`. -/

inductive ProcEvent where
  | chunk (data : List Nat)
  | raised (e : String)

/-- The generator body inside the `try`: chunks yielded so far, and the
exception that interrupted it, if any. -/
def synthesizeBody : List ProcEvent → List (List Nat) × Option String
  | [] => ([], none)
  | ProcEvent.chunk d :: rest =>
    let r := synthesizeBody rest
    (d :: r.1, r.2)
  | ProcEvent.raised e :: _ => ([], some e)

/-- `PiperTTS.synthesize_stream`: lines 64–65 return immediately on empty or
whitespace-only text; lines 70–115 run the whole subprocess interaction
inside `try`/`except Exception`, which logs and falls through, so the
chunks already yielded stand and no exception reaches the caller.  The
second component is the exception escaping to the caller. -/
def synthesizeStream (text : List Char)
    (spawn : Except String (List ProcEvent)) : List (List Nat) × Option String :=
  if (pyStrip text).isEmpty then ([], none)
  else
    match spawn with
    | Except.error _ => ([], none)
    | Except.ok events => ((synthesizeBody events).1, none)

/-- `_edge_tts_synthesize_stream` (`services/tts_hybrid.py`, lines 155–224):
on any exception from the streaming interaction, the `except` clause yields
the fallback generator's chunks after whatever was already yielded. -/
def edgeTtsSynthesizeStream (events : List ProcEvent)
    (fallbackChunks : List (List Nat)) : List (List Nat) × Option String :=
  let body := synthesizeBody events
  match body.2 with
  | none => (body.1, none)
  | some _ => (body.1 ++ fallbackChunks, none)

/-- The per-sentence loop of the delivery pipeline: each sentence is
synthesised with its own backend interaction; chunks concatenate in order. -/
def processSentences (behave : List Char → Except String (List ProcEvent)) :
    List (List Char) → List (List Nat)
  | [] => []
  | s :: rest => (synthesizeStream s (behave s)).1 ++ processSentences behave rest

/-! ## Session cleanup on disconnect (`server.py`, lines 2159–2163)

When the response generator is closed (consumer disconnect), its `finally`
block runs: `producer_task.cancel()` then `await producer_task` under
`suppress(asyncio.CancelledError)`.  No statement on this cleanup path
signals, kills or waits on the piper/ffmpeg subprocesses spawned inside
the synthesis generators: `services/tts.py` lines 85–113 and
`services/tts_hybrid.py` lines 156–216 contain no cancellation handler or
`finally` that terminates the process.  The cleanup therefore changes the
producer task's state and leaves the set of live synthesis subprocesses
untouched. -/

structure SessionState where
  producerRunning : Bool
  liveSubprocs : Nat
deriving DecidableEq

/-- The `finally` block of `voice_interaction.audio_stream_generator`:
cancel and await the producer task; nothing else. -/
def sessionCleanup (s : SessionState) : SessionState :=
  { s with producerRunning := false }

/-! ## Hindi number rewriting (`convert_numbers_to_hindi_words`,
`services/tts_hybrid.py`, lines 77–103) -/

/-- The `HINDI_NUMBERS` table (`services/tts_hybrid.py`, lines 54–75):
word forms for 0–100. -/
def hindiNumberWord : Nat → Option String
  | 0 => some "शून्य"
  | 1 => some "एक"
  | 2 => some "दो"
  | 3 => some "तीन"
  | 4 => some "चार"
  | 5 => some "पांच"
  | 6 => some "छह"
  | 7 => some "सात"
  | 8 => some "आठ"
  | 9 => some "नौ"
  | 10 => some "दस"
  | 11 => some "ग्यारह"
  | 12 => some "बारह"
  | 13 => some "तेरह"
  | 14 => some "चौदह"
  | 15 => some "पंद्रह"
  | 16 => some "सोलह"
  | 17 => some "सत्रह"
  | 18 => some "अठारह"
  | 19 => some "उन्नीस"
  | 20 => some "बीस"
  | 21 => some "इक्कीस"
  | 22 => some "बाईस"
  | 23 => some "तेईस"
  | 24 => some "चौबीस"
  | 25 => some "पच्चीस"
  | 26 => some "छब्बीस"
  | 27 => some "सत्ताईस"
  | 28 => some "अट्ठाईस"
  | 29 => some "उनतीस"
  | 30 => some "तीस"
  | 31 => some "इकतीस"
  | 32 => some "बत्तीस"
  | 33 => some "तैंतीस"
  | 34 => some "चौंतीस"
  | 35 => some "पैंतीस"
  | 36 => some "छत्तीस"
  | 37 => some "सैंतीस"
  | 38 => some "अड़तीस"
  | 39 => some "उनतालीस"
  | 40 => some "चालीस"
  | 41 => some "इकतालीस"
  | 42 => some "बयालीस"
  | 43 => some "तैंतालीस"
  | 44 => some "चौवालीस"
  | 45 => some "पैंतालीस"
  | 46 => some "छियालीस"
  | 47 => some "सैंतालीस"
  | 48 => some "अड़तालीस"
  | 49 => some "उनचास"
  | 50 => some "पचास"
  | 51 => some "इक्यावन"
  | 52 => some "बावन"
  | 53 => some "तिरपन"
  | 54 => some "चौवन"
  | 55 => some "पचपन"
  | 56 => some "छप्पन"
  | 57 => some "सत्तावन"
  | 58 => some "अट्ठावन"
  | 59 => some "उनसठ"
  | 60 => some "साठ"
  | 61 => some "इकसठ"
  | 62 => some "बासठ"
  | 63 => some "तिरसठ"
  | 64 => some "चौंसठ"
  | 65 => some "पैंसठ"
  | 66 => some "छियासठ"
  | 67 => some "सड़सठ"
  | 68 => some "अड़सठ"
  | 69 => some "उनहत्तर"
  | 70 => some "सत्तर"
  | 71 => some "इकहत्तर"
  | 72 => some "बहत्तर"
  | 73 => some "तिहत्तर"
  | 74 => some "चौहत्तर"
  | 75 => some "पचहत्तर"
  | 76 => some "छिहत्तर"
  | 77 => some "सतहत्तर"
  | 78 => some "अठहत्तर"
  | 79 => some "उनासी"
  | 80 => some "अस्सी"
  | 81 => some "इक्यासी"
  | 82 => some "बयासी"
  | 83 => some "तिरासी"
  | 84 => some "चौरासी"
  | 85 => some "पचासी"
  | 86 => some "छियासी"
  | 87 => some "सत्तासी"
  | 88 => some "अट्ठासी"
  | 89 => some "नवासी"
  | 90 => some "नब्बे"
  | 91 => some "इक्यानवे"
  | 92 => some "बानवे"
  | 93 => some "तिरानवे"
  | 94 => some "चौरानवे"
  | 95 => some "पचानवे"
  | 96 => some "छियानवे"
  | 97 => some "सत्तानवे"
  | 98 => some "अट्ठानवे"
  | 99 => some "निन्यानवे"
  | 100 => some "सौ"
  | _ => none

/-- Python word characters (`\w`), on their ASCII core. -/
def isWordChar (c : Char) : Bool :=
  c.isAlphanum || c = '_'

/-- `int(match.group())` on a digit run. -/
def digitsToNat (ds : List Char) : Nat :=
  ds.foldl (fun acc c => 10 * acc + (c.toNat - 48)) 0

/-- `replace_number` (lines 81–96): the table word when present, otherwise
hundreds word + 'सौ' + remainder word for values below 1000, otherwise the
digits unchanged. -/
def replaceNumber (run : List Char) : List Char :=
  let num := digitsToNat run
  match hindiNumberWord num with
  | some w => w.toList
  | none =>
    if num < 1000 then
      let hundreds := num / 100
      let remainder := num % 100
      let result : List String :=
        (if hundreds > 0 then
          [(hindiNumberWord hundreds).getD (toString hundreds), "सौ"] else []) ++
        (if remainder > 0 then
          [(hindiNumberWord remainder).getD (toString remainder)] else [])
      (String.intercalate " " result).toList
    else (toString num).toList

/-- One pass of `re.sub(r'\b(\d{1,3})\b', replace_number, text)`: the
pattern matches a maximal digit run of one to three digits whose two
neighbours are not word characters.  At a candidate start the greedy
`\d{1,3}` cannot stop before the run's end (shrinking makes the trailing
`\b` face two word characters), so a failed boundary fails the whole
start and the scan advances one character, exactly as `re.sub` does; a
run longer than three digits admits no interior word boundary and is
skipped whole.  `prev` is the character before the scan position.  Fuel
as above. -/
def hindiSubGo : Nat → Option Char → List Char → List Char
  | 0, _, s => s
  | _ + 1, _, [] => []
  | fuel + 1, prev, c :: rest =>
    if c.isDigit && !(match prev with | some p => isWordChar p | none => false) then
      let run := (c :: rest).takeWhile Char.isDigit
      let after := (c :: rest).dropWhile Char.isDigit
      if run.length ≤ 3
          && !(match after.head? with | some a => isWordChar a | none => false) then
        replaceNumber run ++ hindiSubGo fuel run.getLast? after
      else
        run ++ hindiSubGo fuel run.getLast? after
    else
      c :: hindiSubGo fuel (some c) rest

/-- `convert_numbers_to_hindi_words`. -/
def convertNumbersToHindiWords (text : List Char) : List Char :=
  hindiSubGo text.length none text

/-- Lines 151–153 of `_edge_tts_synthesize_stream`: the rewriting runs
exactly when `language == 'hi'`; any other language passes through. -/
def edgeTtsPreprocess (language : String) (text : List Char) : List Char :=
  if language = "hi" then convertNumbersToHindiWords text else text

/-! ## Text sanitiser (`clean_text_for_tts`, `services/llm.py`, lines
18–42) -/

/-- The backquote character, U+0060. -/
def backquote : Char := Char.ofNat 96

/-- Generic `re.sub` for the markup patterns of `clean_text_for_tts`, all
of the form «open, at least `minLen` characters outside the stop set,
close» where the first character of `close` is in the stop set: the greedy
run admits no backtracking, a failed close fails the whole start, and the
scan advances one character, as `re.sub` does.  On a match the replacement
is the captured run (`keep = true`) or a single space (`keep = false`, the
fenced-code pattern), and scanning resumes after the match.  Fuel as
above. -/
def subPatGo (op : List Char) (stop : Char → Bool) (minLen : Nat)
    (cl : List Char) (keep : Bool) : Nat → List Char → List Char
  | 0, s => s
  | _ + 1, [] => []
  | fuel + 1, c :: rest =>
    if op.isPrefixOf (c :: rest) then
      let t := (c :: rest).drop op.length
      let run := t.takeWhile (fun x => !stop x)
      let t2 := t.drop run.length
      if minLen ≤ run.length && cl.isPrefixOf t2 then
        (if keep then run else [' '])
          ++ subPatGo op stop minLen cl keep fuel (t2.drop cl.length)
      else
        c :: subPatGo op stop minLen cl keep fuel rest
    else
      c :: subPatGo op stop minLen cl keep fuel rest

/-- Run a markup pattern with sufficient fuel. -/
def subPat (op : List Char) (stop : Char → Bool) (minLen : Nat)
    (cl : List Char) (keep : Bool) (s : List Char) : List Char :=
  subPatGo op stop minLen cl keep s.length s

/-- `re.sub` for the link pattern: open bracket, at least one character
other than a closing bracket, the two middle delimiters, at least one
character other than a closing parenthesis, closing parenthesis; the
replacement keeps the first captured run (the visible link text). -/
def subLinkGo : Nat → List Char → List Char
  | 0, s => s
  | _ + 1, [] => []
  | fuel + 1, c :: rest =>
    if c = '[' then
      let r1 := rest.takeWhile (fun x => x ≠ ']')
      let t2 := rest.drop r1.length
      match t2 with
      | ']' :: '(' :: t3 =>
        let r2 := t3.takeWhile (fun x => x ≠ ')')
        let t4 := t3.drop r2.length
        match t4 with
        | ')' :: t5 =>
          if 1 ≤ r1.length && 1 ≤ r2.length then r1 ++ subLinkGo fuel t5
          else c :: subLinkGo fuel rest
        | _ => c :: subLinkGo fuel rest
      | _ => c :: subLinkGo fuel rest
    else c :: subLinkGo fuel rest

/-- Run the link pattern with sufficient fuel. -/
def subLink (s : List Char) : List Char :=
  subLinkGo s.length s

/-- The character-class substitution: headers, bullets, quote markers each
become a space. -/
def subSpecial (s : List Char) : List Char :=
  s.map (fun c => if c = '#' || c = '-' || c = '•' || c = '>' then ' ' else c)

/-- Whitespace-run collapse: every maximal whitespace run becomes one
space.  Fuel as above. -/
def collapseWsGo : Nat → List Char → List Char
  | 0, s => s
  | _ + 1, [] => []
  | fuel + 1, c :: rest =>
    if pySpace c then ' ' :: collapseWsGo fuel (rest.dropWhile pySpace)
    else c :: collapseWsGo fuel rest

/-- Run the whitespace collapse with sufficient fuel. -/
def collapseWs (s : List Char) : List Char :=
  collapseWsGo s.length s

/-- `clean_text_for_tts` (`services/llm.py`, lines 18–42): the eight
substitutions in source order, then `str.strip()`. -/
def cleanTextForTts (s : List Char) : List Char :=
  let s1 := subPat ['*', '*'] (fun c => c = '*') 1 ['*', '*'] true s
  let s2 := subPat ['*'] (fun c => c = '*') 1 ['*'] true s1
  let s3 := subPat ['_', '_'] (fun c => c = '_') 1 ['_', '_'] true s2
  let s4 := subPat ['_'] (fun c => c = '_') 1 ['_'] true s3
  let s5 := subPat [backquote, backquote, backquote] (fun c => c = backquote) 0
    [backquote, backquote, backquote] false s4
  let s6 := subPat [backquote] (fun c => c = backquote) 1 [backquote] true s5
  let s7 := subLink s6
  let s8 := subSpecial s7
  let s9 := collapseWs s8
  pyStrip s9

/-- Little-endian 16-bit field of a byte list at a byte offset. -/
def readLE16 (bs : List Nat) (off : Nat) : Nat :=
  bs.getD off 0 + 256 * bs.getD (off + 1) 0

/-- Little-endian 32-bit field of a byte list at a byte offset. -/
def readLE32 (bs : List Nat) (off : Nat) : Nat :=
  bs.getD off 0 + 256 * bs.getD (off + 1) 0
    + 65536 * bs.getD (off + 2) 0 + 16777216 * bs.getD (off + 3) 0

/-! ## Theorems -/

/-- A successful boundary split decomposes the input exactly. -/
theorem splitLastBoundaryGo_append :
    ∀ fuel s p r, splitLastBoundaryGo fuel s = some (p, r) → p ++ r = s := by
  intro fuel
  induction fuel with
  | zero => intro s p r h; simp [splitLastBoundaryGo] at h
  | succ n ih =>
    intro s p r h
    match s with
    | [] => simp [splitLastBoundaryGo] at h
    | c :: rest =>
      rw [splitLastBoundaryGo] at h
      by_cases hb : (isTerminalPunct c && (match rest.head? with
          | some d => pySpace d
          | none => false)) = true
      · rw [if_pos hb] at h
        simp only [] at h
        cases hrec : splitLastBoundaryGo n (rest.dropWhile pySpace) with
        | some pr =>
          obtain ⟨p', r'⟩ := pr
          rw [hrec] at h
          injection h with h
          injection h with h1 h2
          subst h1; subst h2
          have := ih (rest.dropWhile pySpace) p' r' hrec
          simp only [List.cons_append, List.append_assoc, this]
          rw [List.takeWhile_append_dropWhile]
        | none =>
          rw [hrec] at h
          injection h with h
          injection h with h1 h2
          subst h1; subst h2
          simp only [List.cons_append]
          rw [List.takeWhile_append_dropWhile]
      · rw [if_neg hb] at h
        cases hrec : splitLastBoundaryGo n rest with
        | some pr =>
          obtain ⟨p', r'⟩ := pr
          rw [hrec] at h
          injection h with h
          injection h with h1 h2
          subst h1; subst h2
          have := ih rest p' r' hrec
          simp [this]
        | none => rw [hrec] at h; exact absurd h (by simp)

/-- `splitLastBoundary` decomposes the input exactly. -/
theorem splitLastBoundary_append {s p r : List Char}
    (h : splitLastBoundary s = some (p, r)) : p ++ r = s :=
  splitLastBoundaryGo_append s.length s p r h

/-- Filtering with the negation of the dropped predicate ignores `dropWhile`. -/
theorem filter_not_dropWhile (p : Char → Bool) :
    ∀ l : List Char, (l.dropWhile p).filter (fun c => !p c) = l.filter (fun c => !p c) := by
  intro l
  induction l with
  | nil => rfl
  | cons c rest ih =>
    by_cases hc : p c
    · simp [List.dropWhile, List.filter, hc, ih]
    · simp [List.dropWhile, List.filter, hc]

/-- `str.strip()` only discards characters: the result is a sublist. -/
theorem pyStrip_sublist (s : List Char) : List.Sublist (pyStrip s) s := by
  unfold pyStrip
  have h1 : List.Sublist (s.dropWhile pySpace) s := List.dropWhile_sublist pySpace
  have h2 : List.Sublist ((s.dropWhile pySpace).reverse.dropWhile pySpace)
      (s.dropWhile pySpace).reverse := List.dropWhile_sublist pySpace
  have h3 := List.reverse_sublist.mpr h2
  rw [List.reverse_reverse] at h3
  exact h3.trans h1

/-- `str.strip()` removes only whitespace: non-whitespace content survives. -/
theorem pyStrip_filter (s : List Char) :
    (pyStrip s).filter (fun c => !pySpace c) = s.filter (fun c => !pySpace c) := by
  unfold pyStrip
  rw [List.filter_reverse, filter_not_dropWhile, List.filter_reverse,
    List.reverse_reverse, filter_not_dropWhile]

/-- A buffer that strips to nothing is pure whitespace. -/
theorem filter_eq_nil_of_pyStrip_eq_nil {s : List Char} (h : pyStrip s = []) :
    s.filter (fun c => !pySpace c) = [] := by
  rw [← pyStrip_filter, h]; rfl

/-- One `_extract_sentences` call: the emitted text plus the new buffer is a
sublist of the old buffer, deleting only whitespace, and at most one entry
is emitted. -/
theorem extractSentences_spec (t : List Char) :
    List.Sublist ((extractSentences t).1.flatten ++ (extractSentences t).2) t ∧
      ((extractSentences t).1.flatten ++ (extractSentences t).2).filter (fun c => !pySpace c)
        = t.filter (fun c => !pySpace c) ∧
      (extractSentences t).1.length ≤ 1 := by
  unfold extractSentences
  cases hs : splitLastBoundary t with
  | none => simp
  | some pr =>
    obtain ⟨pre, rem⟩ := pr
    have hsplit : pre ++ rem = t := splitLastBoundary_append hs
    simp only []
    by_cases he : (pyStrip pre).isEmpty
    · rw [if_pos he]
      have hnil : pyStrip pre = [] := by
        cases h' : pyStrip pre with
        | nil => rfl
        | cons a b => rw [h'] at he; simp [List.isEmpty] at he
      refine ⟨?_, ?_, by simp⟩
      · simp only [List.flatten_nil, List.nil_append]
        exact ((pyStrip_sublist rem).trans (List.sublist_append_right pre rem)).trans
          (by rw [hsplit])
      · simp only [List.flatten_nil, List.nil_append]
        rw [pyStrip_filter, ← hsplit, List.filter_append,
          filter_eq_nil_of_pyStrip_eq_nil hnil, List.nil_append]
    · rw [if_neg he]
      refine ⟨?_, ?_, by simp⟩
      · simp only [List.flatten_cons, List.flatten_nil, List.append_nil]
        have := List.Sublist.append (pyStrip_sublist pre) (pyStrip_sublist rem)
        rwa [hsplit] at this
      · simp only [List.flatten_cons, List.flatten_nil, List.append_nil]
        rw [List.filter_append, pyStrip_filter, pyStrip_filter, ← List.filter_append,
          hsplit]

/-- Unfolding equation for the ingestion loop. -/
theorem runDeltasFrom_cons (buf d : List Char) (ds : List (List Char)) :
    runDeltasFrom buf (d :: ds) =
      ((ingest buf d).1 ++ (runDeltasFrom (ingest buf d).2 ds).1,
        (runDeltasFrom (ingest buf d).2 ds).2) := rfl

/-- The ingestion loop from an arbitrary buffer: everything emitted plus the
final buffer is the starting buffer plus the concatenated deltas with only
whitespace deleted, and each delta emits at most one sentence. -/
theorem runDeltasFrom_spec (ds : List (List Char)) :
    ∀ buf,
      List.Sublist ((runDeltasFrom buf ds).1.flatten ++ (runDeltasFrom buf ds).2)
        (buf ++ ds.flatten) ∧
      ((runDeltasFrom buf ds).1.flatten ++ (runDeltasFrom buf ds).2).filter
          (fun c => !pySpace c) = (buf ++ ds.flatten).filter (fun c => !pySpace c) ∧
      (runDeltasFrom buf ds).1.length ≤ ds.length := by
  induction ds with
  | nil => intro buf; simp [runDeltasFrom]
  | cons d ds ih =>
    intro buf
    have hstep := extractSentences_spec (buf ++ d)
    rw [show extractSentences (buf ++ d) = ingest buf d from rfl] at hstep
    obtain ⟨hsub, hfil, hlen⟩ := hstep
    obtain ⟨hsub', hfil', hlen'⟩ := ih (ingest buf d).2
    rw [runDeltasFrom_cons]
    refine ⟨?_, ?_, ?_⟩
    · simp only [List.flatten_append, List.append_assoc]
      have step1 : List.Sublist
          ((ingest buf d).1.flatten ++
            ((runDeltasFrom (ingest buf d).2 ds).1.flatten ++
              (runDeltasFrom (ingest buf d).2 ds).2))
          ((ingest buf d).1.flatten ++ ((ingest buf d).2 ++ ds.flatten)) :=
        List.Sublist.append_left hsub' _
      have step2 : List.Sublist
          ((ingest buf d).1.flatten ++ ((ingest buf d).2 ++ ds.flatten))
          ((buf ++ d) ++ ds.flatten) := by
        rw [← List.append_assoc]
        exact List.Sublist.append_right hsub ds.flatten
      have := step1.trans step2
      simpa [List.append_assoc] using this
    · simp only [List.flatten_append, List.flatten_cons, List.filter_append,
        List.append_assoc] at hfil hfil' ⊢
      rw [hfil', ← List.append_assoc, hfil, List.append_assoc]
    · simp only [List.length_append, List.length_cons]
      omega

/-- Re-encoding a decoded in-range sample restores the two bytes. -/
theorem samplesToBytes_decodeS16 (lo hi : Nat) (hlo : lo < 256) (hhi : hi < 256)
    (rest : List Int) :
    samplesToBytes (decodeS16 lo hi :: rest) = lo :: hi :: samplesToBytes rest := by
  have h : ((decodeS16 lo hi % 65536)).toNat = lo + 256 * hi := by
    unfold decodeS16; split <;> omega
  have h1 : (lo + 256 * hi) % 256 = lo := by omega
  have h2 : (lo + 256 * hi) / 256 = hi := by omega
  rw [show samplesToBytes (decodeS16 lo hi :: rest)
      = (decodeS16 lo hi % 65536).toNat % 256
          :: (decodeS16 lo hi % 65536).toNat / 256 :: samplesToBytes rest
    from rfl, h, h1, h2]

/-- Byte-level unfolding of `_mono_to_stereo` on one leading sample. -/
theorem monoToStereo_cons (lo hi : Nat) (rest : List Nat) (hlo : lo < 256)
    (hhi : hi < 256) :
    monoToStereo (lo :: hi :: rest) = lo :: hi :: lo :: hi :: monoToStereo rest := by
  unfold monoToStereo
  rw [show bytesToSamples (lo :: hi :: rest) = decodeS16 lo hi :: bytesToSamples rest
    from rfl]
  rw [show duplicateSamples (decodeS16 lo hi :: bytesToSamples rest)
      = decodeS16 lo hi :: decodeS16 lo hi :: duplicateSamples (bytesToSamples rest)
    from rfl]
  rw [samplesToBytes_decodeS16 lo hi hlo hhi, samplesToBytes_decodeS16 lo hi hlo hhi]

theorem bytesToSamples_length : ∀ bs : List Nat, (bytesToSamples bs).length = bs.length / 2 := by
  intro bs
  induction bs using bytesToSamples.induct with
  | case1 lo hi rest ih => simp [bytesToSamples, ih]; omega
  | case2 bs h =>
    match bs, h with
    | [], _ => simp [bytesToSamples]
    | [x], _ => simp [bytesToSamples]
    | (a :: b :: t), h => exact (h a b t rfl).elim

theorem samplesToBytes_length : ∀ l : List Int, (samplesToBytes l).length = 2 * l.length := by
  intro l
  induction l with
  | nil => rfl
  | cons s rest ih => simp [samplesToBytes, ih]; omega

theorem duplicateSamples_length : ∀ l : List Int, (duplicateSamples l).length = 2 * l.length := by
  intro l
  induction l with
  | nil => rfl
  | cons s rest ih => simp [duplicateSamples, ih]; omega

/-- Decoded samples lie in the signed 16-bit range. -/
theorem decodeS16_range (lo hi : Nat) (hlo : lo < 256) (hhi : hi < 256) :
    -32768 ≤ decodeS16 lo hi ∧ decodeS16 lo hi < 32768 := by
  unfold decodeS16; split <;> constructor <;> omega

theorem bytesToSamples_range : ∀ bs : List Nat, (∀ b ∈ bs, b < 256) →
    ∀ s ∈ bytesToSamples bs, -32768 ≤ s ∧ s < 32768 := by
  intro bs
  induction bs using bytesToSamples.induct with
  | case1 lo hi rest ih =>
    intro hb s hs
    rw [show bytesToSamples (lo :: hi :: rest) = decodeS16 lo hi :: bytesToSamples rest
      from rfl] at hs
    rcases List.mem_cons.mp hs with h | h
    · subst h
      exact decodeS16_range lo hi (hb lo (by simp)) (hb hi (by simp))
    · exact ih (fun b hbm => hb b (by simp [hbm])) s h
  | case2 bs hB =>
    match bs, hB with
    | [], _ => intro _ s hs; simp [bytesToSamples] at hs
    | [x], _ => intro _ s hs; simp [bytesToSamples] at hs
    | (a :: b :: t), hB => exact (hB a b t rfl).elim

theorem mem_duplicateSamples : ∀ l : List Int, ∀ s ∈ duplicateSamples l, s ∈ l := by
  intro l
  induction l with
  | nil => intro s hs; simp [duplicateSamples] at hs
  | cons a rest ih =>
    intro s hs
    rw [show duplicateSamples (a :: rest) = a :: a :: duplicateSamples rest from rfl] at hs
    rcases List.mem_cons.mp hs with h | h
    · simp [h]
    · rcases List.mem_cons.mp h with h' | h'
      · simp [h']
      · simp [ih s h']

/-- Decoding inverts encoding on in-range samples. -/
theorem bytesToSamples_samplesToBytes : ∀ l : List Int,
    (∀ s ∈ l, -32768 ≤ s ∧ s < 32768) → bytesToSamples (samplesToBytes l) = l := by
  intro l
  induction l with
  | nil => intro _; rfl
  | cons s rest ih =>
    intro hr
    have hdec : decodeS16 ((s % 65536).toNat % 256) ((s % 65536).toNat / 256) = s := by
      have := hr s (by simp)
      unfold decodeS16; split <;> omega
    rw [show samplesToBytes (s :: rest)
        = (s % 65536).toNat % 256 :: (s % 65536).toNat / 256 :: samplesToBytes rest
      from rfl]
    rw [show bytesToSamples
          ((s % 65536).toNat % 256 :: (s % 65536).toNat / 256 :: samplesToBytes rest)
        = decodeS16 ((s % 65536).toNat % 256) ((s % 65536).toNat / 256)
            :: bytesToSamples (samplesToBytes rest)
      from rfl]
    rw [hdec, ih (fun a ha => hr a (by simp [ha]))]

/-- Sample `i` of a byte buffer is entry `i` of its decoding. -/
theorem bytesToSamples_getD : ∀ bs : List Nat, ∀ i, 2 * i + 1 < bs.length →
    (bytesToSamples bs).getD i 0 = sampleAt bs i := by
  intro bs
  induction bs using bytesToSamples.induct with
  | case1 lo hi rest ih =>
    intro i hilt
    rw [show bytesToSamples (lo :: hi :: rest) = decodeS16 lo hi :: bytesToSamples rest
      from rfl]
    cases i with
    | zero => simp [sampleAt]
    | succ j =>
      have hb : 2 * j + 1 < rest.length := by
        simp only [List.length_cons] at hilt; omega
      have ihj := ih j hb
      simp only [List.getD_cons_succ]
      rw [ihj]
      unfold sampleAt
      rw [show 2 * (j + 1) = 2 * j + 1 + 1 from by omega]
      simp only [List.getD_cons_succ]
  | case2 bs hB =>
    match bs, hB with
    | [], _ => intro i hi; simp at hi
    | [x], _ => intro i hi; simp at hi
    | (a :: b :: t), hB => exact (hB a b t rfl).elim

/-- Entries of the duplicated sample list repeat each source entry twice. -/
theorem duplicateSamples_getD : ∀ l : List Int, ∀ i, i < l.length →
    (duplicateSamples l).getD (2 * i) 0 = l.getD i 0 ∧
    (duplicateSamples l).getD (2 * i + 1) 0 = l.getD i 0 := by
  intro l
  induction l with
  | nil => intro i hi; simp at hi
  | cons s rest ih =>
    intro i hi
    rw [show duplicateSamples (s :: rest) = s :: s :: duplicateSamples rest from rfl]
    cases i with
    | zero => simp
    | succ j =>
      have hb : j < rest.length := by simp only [List.length_cons] at hi; omega
      obtain ⟨ih1, ih2⟩ := ih j hb
      rw [show 2 * (j + 1) = 2 * j + 1 + 1 from by omega]
      simp only [List.getD_cons_succ]
      exact ⟨ih1, ih2⟩

/-- C2 (confirmed): on an even-length buffer of N 16-bit signed little-endian
mono samples, `_mono_to_stereo` returns exactly 2N samples (twice the byte
count), its decoding is the entrywise duplication of the input's decoding,
and `out[2*i] = out[2*i+1] = in[i]` for every sample index `i`, each sample
value copied exactly with no amplitude scaling. -/
theorem C2_mono_to_stereo_upmix (bs : List Nat) (heven : bs.length % 2 = 0)
    (hbytes : ∀ b ∈ bs, b < 256) :
    (monoToStereo bs).length = 2 * bs.length ∧
    bytesToSamples (monoToStereo bs) = duplicateSamples (bytesToSamples bs) ∧
    ∀ i < bs.length / 2,
      sampleAt (monoToStereo bs) (2 * i) = sampleAt bs i ∧
      sampleAt (monoToStereo bs) (2 * i + 1) = sampleAt bs i := by
  have hlen : (monoToStereo bs).length = 2 * bs.length := by
    unfold monoToStereo
    rw [samplesToBytes_length, duplicateSamples_length, bytesToSamples_length]
    omega
  have hrange := bytesToSamples_range bs hbytes
  have hdup : ∀ s ∈ duplicateSamples (bytesToSamples bs), -32768 ≤ s ∧ s < 32768 :=
    fun s hs => hrange s (mem_duplicateSamples _ s hs)
  have hsamp : bytesToSamples (monoToStereo bs) = duplicateSamples (bytesToSamples bs) :=
    bytesToSamples_samplesToBytes _ hdup
  refine ⟨hlen, hsamp, ?_⟩
  intro i hi
  have hslen : (bytesToSamples bs).length = bs.length / 2 := bytesToSamples_length bs
  have hi' : i < (bytesToSamples bs).length := by omega
  obtain ⟨hd1, hd2⟩ := duplicateSamples_getD (bytesToSamples bs) i hi'
  have hb1 : 2 * (2 * i) + 1 < (monoToStereo bs).length := by omega
  have hb2 : 2 * (2 * i + 1) + 1 < (monoToStereo bs).length := by omega
  have hbi : 2 * i + 1 < bs.length := by omega
  constructor
  · rw [← bytesToSamples_getD (monoToStereo bs) (2 * i) hb1, hsamp, hd1,
      bytesToSamples_getD bs i hbi]
  · rw [← bytesToSamples_getD (monoToStereo bs) (2 * i + 1) hb2, hsamp, hd2,
      bytesToSamples_getD bs i hbi]

/-- Witness for C2 at the concrete buffer `[1, 0, 0, 128]`
(samples `1` and `-32768`). -/
theorem C2_mono_to_stereo_upmix_witness :
    (monoToStereo [1, 0, 0, 128]).length = 2 * ([1, 0, 0, 128] : List Nat).length ∧
    bytesToSamples (monoToStereo [1, 0, 0, 128])
      = duplicateSamples (bytesToSamples [1, 0, 0, 128]) ∧
    ∀ i < ([1, 0, 0, 128] : List Nat).length / 2,
      sampleAt (monoToStereo [1, 0, 0, 128]) (2 * i) = sampleAt [1, 0, 0, 128] i ∧
      sampleAt (monoToStereo [1, 0, 0, 128]) (2 * i + 1) = sampleAt [1, 0, 0, 128] i :=
  C2_mono_to_stereo_upmix [1, 0, 0, 128] (by decide) (by decide)



/-- C1 (amended): for every delta sequence, the segmenter emits at most one
sentence per ingested delta (all complete sentences up to the last detected
boundary, emitted as one unit) and at most one sentence on flush (none when
the remainder is whitespace-only); the concatenation of every emitted
sentence text is the concatenated input with only whitespace characters
removed: a sublist of the input that retains every non-whitespace character
exactly, in order — no loss and no duplication of non-whitespace content. -/
theorem C1_segmentation_reconstruction (deltas : List (List Char)) :
    List.Sublist (segmentDeltas deltas).flatten deltas.flatten ∧
    (segmentDeltas deltas).flatten.filter (fun c => !pySpace c)
      = deltas.flatten.filter (fun c => !pySpace c) ∧
    (∀ buf d, (ingest buf d).1.length ≤ 1) ∧
    (∀ buf, (flushBuffer buf).length ≤ 1) := by
  obtain ⟨hsub, hfil, _⟩ := runDeltasFrom_spec deltas []
  rw [List.nil_append] at hsub hfil
  have hseg : (segmentDeltas deltas).flatten
      = (runDeltasFrom [] deltas).1.flatten
        ++ (flushBuffer (runDeltasFrom [] deltas).2).flatten := by
    unfold segmentDeltas runDeltas
    rw [List.flatten_append]
  refine ⟨?_, ?_, ?_, ?_⟩
  · rw [hseg]
    by_cases hb : (pyStrip (runDeltasFrom [] deltas).2).isEmpty
    · rw [show flushBuffer (runDeltasFrom [] deltas).2 = [] from by
        unfold flushBuffer; rw [if_pos hb]]
      simp only [List.flatten_nil, List.append_nil]
      exact (List.sublist_append_left _ _).trans hsub
    · rw [show flushBuffer (runDeltasFrom [] deltas).2
          = [pyStrip (runDeltasFrom [] deltas).2] from by
        unfold flushBuffer; rw [if_neg hb]]
      simp only [List.flatten_cons, List.flatten_nil, List.append_nil]
      exact (List.Sublist.append_left (pyStrip_sublist _) _).trans hsub
  · rw [hseg]
    rw [List.filter_append] at hfil ⊢
    by_cases hb : (pyStrip (runDeltasFrom [] deltas).2).isEmpty
    · rw [show flushBuffer (runDeltasFrom [] deltas).2 = [] from by
        unfold flushBuffer; rw [if_pos hb]]
      have hnil : pyStrip (runDeltasFrom [] deltas).2 = [] := List.isEmpty_iff.mp hb
      have hbf : ((runDeltasFrom [] deltas).2).filter (fun c => !pySpace c) = [] :=
        filter_eq_nil_of_pyStrip_eq_nil hnil
      rw [hbf, List.append_nil] at hfil
      simpa using hfil
    · rw [show flushBuffer (runDeltasFrom [] deltas).2
          = [pyStrip (runDeltasFrom [] deltas).2] from by
        unfold flushBuffer; rw [if_neg hb]]
      simp only [List.flatten_cons, List.flatten_nil, List.append_nil]
      rw [pyStrip_filter]
      exact hfil
  · intro buf d
    exact (extractSentences_spec (buf ++ d)).2.2
  · intro buf
    unfold flushBuffer
    split
    · simp
    · simp

/-- C1 counterexample: the single-delta sequence `["One. Two. "]` contains
two terminal-punctuation boundaries (`k = 2`), yet ingestion emits exactly
one sentence (the two complete sentences as one unit), the flush emits no
sentence at all, and the concatenation of the emissions, `"One. Two."`, is
not the original input: exact reconstruction fails. -/
theorem C1_counterexample :
    (runDeltas ["One. Two. ".toList]).1 = ["One. Two.".toList] ∧
    (runDeltas ["One. Two. ".toList]).1.length ≠ 2 ∧
    flushBuffer (runDeltas ["One. Two. ".toList]).2 = [] ∧
    (segmentDeltas ["One. Two. ".toList]).flatten ≠ "One. Two. ".toList := by
  refine ⟨by decide, by decide, by decide, by decide⟩

/-- C8 (amended): on the delta sequence `["Hello", " world.", " How are",
" you?"]` the segmenter emits nothing after the first two deltas (the
period is not yet followed by whitespace), emits "Hello world." immediately
after ingesting the *third* delta, and emits "How are you?" on flush after
the fourth; exactly two sentences result, in that order, and for any
synthesiser the session's chunk sequence is the header, the warm-up
silence, then the audio of sentence one followed by the audio of sentence
two. -/
theorem C8_hello_world_trace :
    (runDeltas ["Hello".toList, " world.".toList]).1 = [] ∧
    (runDeltas ["Hello".toList, " world.".toList, " How are".toList]).1
      = ["Hello world.".toList] ∧
    segmentDeltas ["Hello".toList, " world.".toList, " How are".toList, " you?".toList]
      = ["Hello world.".toList, "How are you?".toList] ∧
    ∀ synth : List Char → List (List Nat),
      sessionStream synth
          (segmentDeltas
            ["Hello".toList, " world.".toList, " How are".toList, " you?".toList])
        = wavStreamHeader :: List.replicate warmupBytes 0
            :: (synth "Hello world.".toList ++ synth "How are you?".toList) := by
  refine ⟨by decide, by decide, by decide, ?_⟩
  intro synth
  rw [show segmentDeltas
        ["Hello".toList, " world.".toList, " How are".toList, " you?".toList]
      = ["Hello world.".toList, "How are you?".toList] from by decide]
  unfold sessionStream audioStreamChunks consumeSentences
  rw [if_neg (by decide : ¬ (warmupBytes = 0))]
  simp

/-- C8 counterexample: after ingesting the first two deltas `"Hello"` and
`" world."` the segmenter has emitted nothing — not `"Hello world."` as the
claim states — because the terminal period is not yet followed by
whitespace. -/
theorem C8_counterexample :
    (runDeltas ["Hello".toList, " world.".toList]).1 = [] ∧
    (runDeltas ["Hello".toList, " world.".toList]).1 ≠ ["Hello world.".toList] := by
  refine ⟨by decide, by decide⟩

/-- Byte-level unfolding of the upmix on one decoded sample. -/
theorem monoToStereo_cons_bytes (lo hi : Nat) (rest : List Nat) :
    monoToStereo (lo :: hi :: rest)
      = (decodeS16 lo hi % 65536).toNat % 256 :: (decodeS16 lo hi % 65536).toNat / 256
        :: (decodeS16 lo hi % 65536).toNat % 256 :: (decodeS16 lo hi % 65536).toNat / 256
        :: monoToStereo rest := rfl

/-- The upmix distributes over append at even split points. -/
theorem monoToStereo_append : ∀ a b : List Nat, a.length % 2 = 0 →
    monoToStereo (a ++ b) = monoToStereo a ++ monoToStereo b := by
  intro a
  induction a using bytesToSamples.induct with
  | case1 lo hi rest ih =>
    intro b ha
    have hr : rest.length % 2 = 0 := by
      simp only [List.length_cons] at ha; omega
    rw [List.cons_append, List.cons_append, monoToStereo_cons_bytes,
      monoToStereo_cons_bytes, ih b hr]
    simp
  | case2 a h =>
    match a, h with
    | [], _ => intro b _; rfl
    | [x], _ => intro b hb; simp at hb
    | (p :: q :: t), h => exact (h p q t rfl).elim

/-- Unfolding of one drain-loop iteration when at least 4096 bytes are
buffered (`process_size` reduces to 4096 since 4096 is even). -/
theorem drainBufferGo_succ (n : Nat) (buf : List Nat) (h4 : 4096 ≤ buf.length) :
    drainBufferGo (n + 1) buf
      = (monoToStereo (buf.take 4096) :: (drainBufferGo n (buf.drop 4096)).1,
         (drainBufferGo n (buf.drop 4096)).2) := by
  simp only [drainBufferGo]
  rw [if_pos h4]
  norm_num

/-- The drain loop consumes a multiple-of-4096 prefix: its stereo chunks
flatten to the upmix of that (even-length) prefix and the rest of the
buffer is kept for later input. -/
theorem drainBufferGo_spec : ∀ fuel buf, buf.length ≤ fuel →
    ∃ k, k % 4096 = 0 ∧ k ≤ buf.length ∧
      (drainBufferGo fuel buf).1.flatten = monoToStereo (buf.take k) ∧
      (drainBufferGo fuel buf).2 = buf.drop k := by
  intro fuel
  induction fuel with
  | zero =>
    intro buf hb
    have hnil : buf = [] := List.length_eq_zero.mp (by omega)
    subst hnil
    exact ⟨0, by omega, by omega, rfl, rfl⟩
  | succ n ih =>
    intro buf hb
    by_cases h4 : 4096 ≤ buf.length
    · obtain ⟨k', h1, h2, h3, hdrop⟩ := ih (buf.drop 4096) (by
        rw [List.length_drop]; omega)
      rw [List.length_drop] at h2
      refine ⟨4096 + k', by omega, by omega, ?_, ?_⟩
      · rw [drainBufferGo_succ n buf h4]
        simp only [List.flatten_cons]
        rw [h3, ← monoToStereo_append _ _ (by
          rw [List.length_take]; omega), ← List.take_add]
      · rw [drainBufferGo_succ n buf h4]
        simp only []
        rw [hdrop, List.drop_drop]
    · refine ⟨0, by omega, by omega, ?_, ?_⟩
      · have hk : drainBufferGo (n + 1) buf = ([], buf) := by
          simp only [drainBufferGo]
          rw [if_neg h4]
        rw [hk, List.take_zero]
        rfl
      · have hk : drainBufferGo (n + 1) buf = ([], buf) := by
          simp only [drainBufferGo]
          rw [if_neg h4]
        rw [hk, List.drop_zero]

/-- Unfolding equation for the feed loop. -/
theorem feedChunks_cons (buf c : List Nat) (cs : List (List Nat)) :
    feedChunks buf (c :: cs)
      = ((drainBuffer (buf ++ c)).1 ++ (feedChunks (drainBuffer (buf ++ c)).2 cs).1,
         (feedChunks (drainBuffer (buf ++ c)).2 cs).2) := rfl

/-- Feeding the stream piece by piece processes an even-length prefix of the
total input and keeps the rest buffered: no byte is lost or duplicated
mid-stream, and any trailing odd byte stays in the buffer that the next
piece is appended to. -/
theorem feedChunks_spec : ∀ cs : List (List Nat), ∀ buf,
    ∃ k, k % 2 = 0 ∧ k ≤ (buf ++ cs.flatten).length ∧
      (feedChunks buf cs).1.flatten = monoToStereo ((buf ++ cs.flatten).take k) ∧
      (feedChunks buf cs).2 = (buf ++ cs.flatten).drop k := by
  intro cs
  induction cs with
  | nil =>
    intro buf
    refine ⟨0, by omega, by omega, rfl, ?_⟩
    simp [feedChunks]
  | cons c cs ih =>
    intro buf
    obtain ⟨k₁, hk₁m, hk₁le, hout₁, hbuf₁⟩ :=
      drainBufferGo_spec (buf ++ c).length (buf ++ c) (le_refl _)
    have hout₁' : (drainBuffer (buf ++ c)).1.flatten
        = monoToStereo ((buf ++ c).take k₁) := hout₁
    have hbuf₁' : (drainBuffer (buf ++ c)).2 = (buf ++ c).drop k₁ := hbuf₁
    obtain ⟨k₂, hk₂m, hk₂le, hout₂, hbuf₂⟩ := ih (drainBuffer (buf ++ c)).2
    rw [hbuf₁'] at hk₂le hout₂ hbuf₂
    have htot : buf ++ (c :: cs).flatten = (buf ++ c) ++ cs.flatten := by
      rw [List.flatten_cons, List.append_assoc]
    rw [List.length_append, List.length_drop] at hk₂le
    refine ⟨k₁ + k₂, by omega, ?_, ?_, ?_⟩
    · rw [htot, List.length_append]; omega
    · rw [feedChunks_cons]
      simp only [List.flatten_append]
      rw [hout₁', hbuf₁', hout₂, htot]
      have e1 : List.take k₁ (buf ++ c) = List.take k₁ ((buf ++ c) ++ cs.flatten) :=
        (List.take_append_of_le_length hk₁le).symm
      have e2 : List.drop k₁ (buf ++ c) ++ cs.flatten
          = List.drop k₁ ((buf ++ c) ++ cs.flatten) :=
        (List.drop_append_of_le_length hk₁le).symm
      rw [e1, e2]
      rw [← monoToStereo_append _ _ (by
        rw [List.length_take, List.length_append]
        omega), ← List.take_add]
    · rw [feedChunks_cons]
      simp only []
      rw [hbuf₁', hbuf₂, htot]
      have e2 : List.drop k₁ (buf ++ c) ++ cs.flatten
          = List.drop k₁ ((buf ++ c) ++ cs.flatten) :=
        (List.drop_append_of_le_length hk₁le).symm
      rw [e2, List.drop_drop]

/-- The tail flush upmixes exactly the even-length prefix of the remaining
buffer. -/
theorem finalFlush_flatten (buf : List Nat) :
    (finalFlush buf).flatten = monoToStereo (buf.take (2 * (buf.length / 2))) := by
  unfold finalFlush
  by_cases h2 : 2 ≤ buf.length
  · rw [if_pos h2]
    simp only []
    have hps : (if buf.length % 2 = 0 then buf.length else buf.length - 1)
        = 2 * (buf.length / 2) := by
      split <;> omega
    rw [hps, if_pos (by omega : 0 < 2 * (buf.length / 2))]
    simp
  · rw [if_neg h2]
    have h0 : 2 * (buf.length / 2) = 0 := by omega
    rw [h0, List.take_zero]
    rfl

/-- Closed form of the whole streaming path: it upmixes exactly the maximal
even-length prefix of the concatenated mono input. -/
theorem rawPcmStream_flatten (chunks : List (List Nat)) :
    (rawPcmStream chunks).flatten
      = monoToStereo (chunks.flatten.take (2 * (chunks.flatten.length / 2))) := by
  obtain ⟨k, hkm, hkle, hout, hbuf⟩ := feedChunks_spec chunks []
  rw [List.nil_append] at hkle hout hbuf
  unfold rawPcmStream
  rw [List.flatten_append, hout, finalFlush_flatten, hbuf]
  rw [← monoToStereo_append _ _ (by rw [List.length_take]; omega), ← List.take_add]
  have harg : k + 2 * ((chunks.flatten.drop k).length / 2)
      = 2 * (chunks.flatten.length / 2) := by
    rw [List.length_drop]; omega
  rw [harg]

/-- C3 (confirmed): the raw-PCM streaming upmix is chunking-invariant — for
every partition of the mono byte stream into pieces, the concatenated
stereo output equals that of feeding the whole stream as a single piece,
both being the upmix of the maximal even-length prefix of the input;
every drain step keeps the unprocessed suffix (in particular any trailing
odd byte) in the buffer, and the next piece is appended after that
carried-over remainder, so sample alignment is never violated mid-stream. -/
theorem C3_streaming_upmix_chunking_invariant (chunks : List (List Nat)) :
    (rawPcmStream chunks).flatten = (rawPcmStream [chunks.flatten]).flatten ∧
    (rawPcmStream chunks).flatten
      = monoToStereo (chunks.flatten.take (2 * (chunks.flatten.length / 2))) ∧
    (∀ buf : List Nat, ∃ k, k % 2 = 0 ∧ k ≤ buf.length ∧
      (drainBuffer buf).1.flatten = monoToStereo (buf.take k) ∧
      (drainBuffer buf).2 = buf.drop k) ∧
    (∀ buf c cs, feedChunks buf (c :: cs)
      = ((drainBuffer (buf ++ c)).1 ++ (feedChunks (drainBuffer (buf ++ c)).2 cs).1,
         (feedChunks (drainBuffer (buf ++ c)).2 cs).2)) := by
  refine ⟨?_, rawPcmStream_flatten chunks, ?_, fun buf c cs => feedChunks_cons buf c cs⟩
  · rw [rawPcmStream_flatten chunks, rawPcmStream_flatten [chunks.flatten]]
    simp
  · intro buf
    obtain ⟨k, h1, h2, h3, h4⟩ := drainBufferGo_spec buf.length buf (le_refl _)
    exact ⟨k, by omega, h2, h3, h4⟩

/-- C5 (confirmed): every session's chunk stream begins with exactly one
44-byte WAV header, emitted strictly before the warm-up silence chunk and
before any audio chunk, and never emitted again by the generator; its
fields declare sample rate 22050, 2 channels and 16 bits per sample, and
the RIFF-size and data-size fields hold the streaming sentinels
`0x7FFFFFFF - 8` and `0x7FFFFFFF` rather than the true length. -/
theorem C5_wav_header_once :
    (∀ audio, audioStreamChunks audio
      = wavStreamHeader :: List.replicate warmupBytes 0 :: audio) ∧
    wavStreamHeader.length = 44 ∧
    readLE32 wavStreamHeader 24 = 22050 ∧
    readLE16 wavStreamHeader 22 = 2 ∧
    readLE16 wavStreamHeader 34 = 16 ∧
    readLE32 wavStreamHeader 4 = 0x7FFFFFFF - 8 ∧
    readLE32 wavStreamHeader 40 = 0x7FFFFFFF ∧
    (∀ audio, wavStreamHeader ∉ audio →
      (audioStreamChunks audio).count wavStreamHeader = 1) := by
  have hgen : ∀ audio : List (List Nat), audioStreamChunks audio
      = wavStreamHeader :: List.replicate warmupBytes 0 :: audio := by
    intro audio
    unfold audioStreamChunks
    rw [if_neg (by decide : ¬ (warmupBytes = 0))]
    rfl
  refine ⟨hgen, by decide, by decide, by decide, by decide, by decide, by decide, ?_⟩
  intro audio hna
  rw [hgen audio]
  have hw : ¬ (List.replicate warmupBytes 0 = wavStreamHeader) := by decide
  simp [List.count_cons, List.count_eq_zero.mpr hna, hw]

/-- Witness for C5's uniqueness clause at the empty audio stream. -/
theorem C5_wav_header_once_witness :
    (audioStreamChunks []).count wavStreamHeader = 1 ∧
    audioStreamChunks [] = [wavStreamHeader, List.replicate warmupBytes 0] :=
  ⟨C5_wav_header_once.2.2.2.2.2.2.2 [] (by decide), C5_wav_header_once.1 []⟩

/-- C6 (confirmed): in every reachable state of the producer/consumer
pipeline the queue holds at most five items; when it holds exactly five no
`put` transition exists (the producer stays suspended), and after a
consumer `get` from a full queue a `put` of the next pending sentence is
enabled again. -/
theorem C6_delivery_queue_bound :
    (∀ init s, QueueReachable init s → s.queue.length ≤ 5) ∧
    (∀ s s', s.queue.length = 5 → ¬ QueueStep QueueLabel.put s s') ∧
    (∀ s s' x p, s.queue.length = 5 → QueueStep QueueLabel.get s s' →
      s'.pending = x :: p → ∃ s'', QueueStep QueueLabel.put s' s'') := by
  refine ⟨?_, ?_, ?_⟩
  · intro init s h
    induction h with
    | refl => simp
    | tail hsteps hstep ih =>
      obtain ⟨l, st⟩ := hstep
      cases st with
      | @put x p q hlt =>
        show (q ++ [x]).length ≤ 5
        simp only [List.length_append, List.length_cons, List.length_nil]
        omega
      | @get x p q =>
        show q.length ≤ 5
        have hb : (x :: q).length ≤ 5 := ih
        simp only [List.length_cons] at hb
        omega
  · intro s s' h5 hstep
    cases hstep with
    | @put x p q hlt =>
      have h5' : q.length = 5 := h5
      omega
  · intro s s' x p h5 hget hpend
    cases hget with
    | @get y p₀ q =>
      have h5' : (y :: q).length = 5 := h5
      simp only [List.length_cons] at h5'
      have hp : p₀ = x :: p := hpend
      subst hp
      exact ⟨_, QueueStep.put (by omega)⟩

/-- Witness for C6 at concrete states: the initial state is within bound, a
full queue admits no put, and after one get a put is enabled. -/
theorem C6_delivery_queue_bound_witness :
    (⟨[], []⟩ : QueueState).queue.length ≤ 5 ∧
    ¬ QueueStep QueueLabel.put ⟨[['a']], [[], [], [], [], []]⟩ ⟨[], []⟩ ∧
    ∃ s'', QueueStep QueueLabel.put ⟨[['a']], [[], [], [], []]⟩ s'' :=
  ⟨C6_delivery_queue_bound.1 [] ⟨[], []⟩ Relation.ReflTransGen.refl,
   C6_delivery_queue_bound.2.1 ⟨[['a']], [[], [], [], [], []]⟩ ⟨[], []⟩ (by decide),
   C6_delivery_queue_bound.2.2 ⟨[['a']], [] :: [[], [], [], []]⟩ ⟨[['a']], [[], [], [], []]⟩
     ['a'] [] (by decide) QueueStep.get rfl⟩

/-- C7 (confirmed): synthesis never lets a backend exception escape: the
stream function always reports no escaping exception, yields nothing (and
no error) on empty or whitespace-only text, the Edge-TTS path degrades to
the fallback generator's chunks on failure, and the per-sentence pipeline
loop continues with the remaining sentences whatever one sentence's
backend does. -/
theorem C7_synthesis_error_containment :
    (∀ text spawn, (synthesizeStream text spawn).2 = none) ∧
    (∀ text spawn, (pyStrip text).isEmpty → synthesizeStream text spawn = ([], none)) ∧
    (∀ events fallbackChunks,
      (edgeTtsSynthesizeStream events fallbackChunks).2 = none) ∧
    (∀ behave s rest, processSentences behave (s :: rest)
      = (synthesizeStream s (behave s)).1 ++ processSentences behave rest) := by
  refine ⟨?_, ?_, ?_, fun behave s rest => rfl⟩
  · intro text spawn
    unfold synthesizeStream
    split
    · rfl
    · cases spawn <;> rfl
  · intro text spawn h
    unfold synthesizeStream
    rw [if_pos h]
  · intro events fb
    cases hb : (synthesizeBody events).2 with
    | none => simp [edgeTtsSynthesizeStream, hb]
    | some e => simp [edgeTtsSynthesizeStream, hb]

/-- Witness for C7: a whitespace-only sentence with a failing spawn yields
no audio and no error; a mid-stream failure after one chunk also escapes no
exception. -/
theorem C7_synthesis_error_containment_witness :
    synthesizeStream "   ".toList (Except.error "spawn failed") = ([], none) ∧
    (synthesizeStream "hi there".toList
      (Except.ok [ProcEvent.chunk [1, 2], ProcEvent.raised "boom"])).2 = none :=
  ⟨C7_synthesis_error_containment.2.1 "   ".toList (Except.error "spawn failed") (by decide),
   C7_synthesis_error_containment.1 "hi there".toList
     (Except.ok [ProcEvent.chunk [1, 2], ProcEvent.raised "boom"])⟩

/-- C9 (code evidence): the disconnect cleanup cancels and awaits only the
producer task and leaves every synthesis subprocess untouched: after
`sessionCleanup` the producer no longer runs while the number of live
subprocesses is unchanged — a session closed mid-synthesis with one live
piper process still has that process after cleanup, so a subprocess can
outlive the session, contrary to the claim. -/
theorem C9_cleanup_ignores_subprocesses :
    (∀ s, (sessionCleanup s).producerRunning = false) ∧
    (∀ s, (sessionCleanup s).liveSubprocs = s.liveSubprocs) ∧
    sessionCleanup ⟨true, 1⟩ = ⟨false, 1⟩ :=
  ⟨fun _ => rfl, fun _ => rfl, rfl⟩

/-- Each markup substitution never lengthens the text: a match replaces
opening delimiter, captured run and closing delimiter by the run alone (or
by one space), and non-matching positions are copied. -/
theorem subPatGo_length (op : List Char) (stop : Char → Bool) (minLen : Nat)
    (cl : List Char) (keep : Bool) (hop : op ≠ []) :
    ∀ fuel s, (subPatGo op stop minLen cl keep fuel s).length ≤ s.length := by
  intro fuel
  induction fuel with
  | zero => intro s; simp [subPatGo]
  | succ n ih =>
    intro s
    match s with
    | [] => simp [subPatGo]
    | c :: rest =>
      simp only [subPatGo]
      by_cases h1 : op.isPrefixOf (c :: rest)
      · rw [if_pos h1]
        set T := (c :: rest).drop op.length with hTdef
        set RUN := T.takeWhile (fun x => !stop x) with hRUNdef
        set T2 := T.drop RUN.length with hT2def
        by_cases h2 : (decide (minLen ≤ RUN.length) && cl.isPrefixOf T2) = true
        · rw [if_pos h2]
          simp only [Bool.and_eq_true, decide_eq_true_eq] at h2
          obtain ⟨h2a, h2b⟩ := h2
          have hople : 1 ≤ op.length := List.length_pos.mpr hop
          have hopc : op.length ≤ (c :: rest).length :=
            (List.isPrefixOf_iff_prefix.mp h1).length_le
          have hT : T.length = (c :: rest).length - op.length := by
            rw [hTdef, List.length_drop]
          have hRUN : RUN.length ≤ T.length := by
            rw [hRUNdef]
            exact (List.takeWhile_sublist _).length_le
          have hT2 : T2.length = T.length - RUN.length := by
            rw [hT2def, List.length_drop]
          have hcl : cl.length ≤ T2.length :=
            (List.isPrefixOf_iff_prefix.mp h2b).length_le
          have hrest2 : (T2.drop cl.length).length = T2.length - cl.length :=
            List.length_drop _ _
          have hih := ih (T2.drop cl.length)
          rw [List.length_append]
          simp only [List.length_cons] at hopc hT ⊢
          cases keep
          · simp only [Bool.false_eq_true, if_neg, List.length_cons,
              List.length_nil, if_false]
            omega
          · simp only [if_true]
            omega
        · rw [if_neg h2]
          simp only [List.length_cons]
          exact Nat.succ_le_succ (ih rest)
      · rw [if_neg h1]
        simp only [List.length_cons]
        exact Nat.succ_le_succ (ih rest)

/-- The wrapped substitution never lengthens the text. -/
theorem subPat_length (op : List Char) (stop : Char → Bool) (minLen : Nat)
    (cl : List Char) (keep : Bool) (hop : op ≠ []) (s : List Char) :
    (subPat op stop minLen cl keep s).length ≤ s.length :=
  subPatGo_length op stop minLen cl keep hop s.length s

/-- The link substitution never lengthens the text: a match keeps only the
visible link text. -/
theorem subLinkGo_length : ∀ fuel s, (subLinkGo fuel s).length ≤ s.length := by
  intro fuel
  induction fuel with
  | zero => intro s; simp [subLinkGo]
  | succ n ih =>
    intro s
    match s with
    | [] => simp [subLinkGo]
    | c :: rest =>
      simp only [subLinkGo]
      by_cases h1 : c = '['
      · rw [if_pos h1]
        have hr1 : ((rest.takeWhile (fun x => x ≠ ']')).length) ≤ rest.length :=
          (List.takeWhile_sublist _).length_le
        split
        · rename_i t3 heq
          have hlen3 : rest.length
              = (rest.takeWhile (fun x => x ≠ ']')).length + (t3.length + 2) := by
            have := congrArg List.length heq
            rw [List.length_drop] at this
            simp only [List.length_cons] at this
            omega
          split
          · rename_i t5 heq2
            have hr2 : ((t3.takeWhile (fun x => x ≠ ')')).length) ≤ t3.length :=
              (List.takeWhile_sublist _).length_le
            have hlen5 : t3.length
                = (t3.takeWhile (fun x => x ≠ ')')).length + (t5.length + 1) := by
              have := congrArg List.length heq2
              rw [List.length_drop] at this
              simp only [List.length_cons] at this
              omega
            split
            · have hih := ih t5
              rw [List.length_append]
              simp only [List.length_cons]
              omega
            · simp only [List.length_cons]
              exact Nat.succ_le_succ (ih rest)
          · simp only [List.length_cons]
            exact Nat.succ_le_succ (ih rest)
        · simp only [List.length_cons]
          exact Nat.succ_le_succ (ih rest)
      · rw [if_neg h1]
        simp only [List.length_cons]
        exact Nat.succ_le_succ (ih rest)

/-- The whole-link wrapper never lengthens the text. -/
theorem subLink_length (s : List Char) : (subLink s).length ≤ s.length :=
  subLinkGo_length s.length s

/-- The character-class substitution preserves length. -/
theorem subSpecial_length (s : List Char) : (subSpecial s).length = s.length :=
  List.length_map _ _

/-- Whitespace collapsing never lengthens the text. -/
theorem collapseWsGo_length : ∀ fuel s, (collapseWsGo fuel s).length ≤ s.length := by
  intro fuel
  induction fuel with
  | zero => intro s; simp [collapseWsGo]
  | succ n ih =>
    intro s
    match s with
    | [] => simp [collapseWsGo]
    | c :: rest =>
      simp only [collapseWsGo]
      by_cases h1 : pySpace c = true
      · rw [if_pos h1]
        simp only [List.length_cons]
        have hdw : (rest.dropWhile pySpace).length ≤ rest.length :=
          (List.dropWhile_sublist _).length_le
        have := ih (rest.dropWhile pySpace)
        omega
      · rw [if_neg h1]
        simp only [List.length_cons]
        exact Nat.succ_le_succ (ih rest)

theorem collapseWs_length (s : List Char) : (collapseWs s).length ≤ s.length :=
  collapseWsGo_length s.length s

theorem pyStrip_length (s : List Char) : (pyStrip s).length ≤ s.length :=
  (pyStrip_sublist s).length_le

/-- C4 (amended): the sanitiser never increases text length: every
substitution stage replaces each match by a strict sub-part or by a single
space, and stripping only removes characters. -/
theorem C4_sanitizer_never_longer (s : List Char) :
    (cleanTextForTts s).length ≤ s.length := by
  unfold cleanTextForTts
  refine le_trans (pyStrip_length _) ?_
  refine le_trans (collapseWs_length _) ?_
  rw [subSpecial_length]
  refine le_trans (subLink_length _) ?_
  refine le_trans (subPat_length _ _ _ _ _ (by simp) _) ?_
  refine le_trans (subPat_length _ _ _ _ _ (by simp) _) ?_
  refine le_trans (subPat_length _ _ _ _ _ (by simp) _) ?_
  refine le_trans (subPat_length _ _ _ _ _ (by simp) _) ?_
  refine le_trans (subPat_length _ _ _ _ _ (by simp) _) ?_
  exact subPat_length _ _ _ _ _ (by simp) _

/-- C4 counterexample: the sanitiser is not idempotent.  On the input
written with backquotes as «bq * bq a bq * bq», the first pass removes the
italic markers and then the inline-code markers that this uncovers only
partially, producing «bq a bq», and a second pass strips the remaining
inline-code pair, producing «a»: applying the sanitiser twice differs from
applying it once. -/
theorem C4_counterexample :
    cleanTextForTts (cleanTextForTts
        [backquote, '*', backquote, 'a', backquote, '*', backquote])
      ≠ cleanTextForTts [backquote, '*', backquote, 'a', backquote, '*', backquote] ∧
    cleanTextForTts [backquote, '*', backquote, 'a', backquote, '*', backquote]
      = [backquote, 'a', backquote] ∧
    cleanTextForTts [backquote, 'a', backquote] = ['a'] := by
  refine ⟨by decide, by decide, by decide⟩

theorem isWordChar_of_isDigit {c : Char} (h : c.isDigit = true) :
    isWordChar c = true := by
  simp [isWordChar, Char.isAlphanum, h]

/-- The scan does not depend on the fuel as long as it covers the input. -/
theorem hindiSubGo_fuel : ∀ fuel, ∀ s : List Char, ∀ prev, s.length ≤ fuel →
    hindiSubGo fuel prev s = hindiSubGo s.length prev s := by
  intro fuel
  induction fuel using Nat.strong_induction_on with
  | _ fuel ih =>
    intro s prev hle
    match fuel, s with
    | 0, s =>
      have hnil : s = [] := List.length_eq_zero.mp (by omega)
      subst hnil
      rfl
    | f + 1, [] => rfl
    | f + 1, c :: rest =>
      have hrest : rest.length ≤ f := by
        simp only [List.length_cons] at hle; omega
      rw [List.length_cons]
      simp only [hindiSubGo]
      split
      · rename_i h1
        have hc : c.isDigit = true := by
          simp only [Bool.and_eq_true] at h1
          exact h1.1
        have hlen : ((c :: rest).dropWhile Char.isDigit).length ≤ rest.length := by
          rw [List.dropWhile_cons_of_pos hc]
          exact (List.dropWhile_sublist _).length_le
        split
        · rw [ih f (by omega) _ _ (by omega),
            ih rest.length (by omega) _ _ (by omega)]
        · rw [ih f (by omega) _ _ (by omega),
            ih rest.length (by omega) _ _ (by omega)]
      · rw [ih f (by omega) rest (some c) hrest]

/-- `takeWhile`/`dropWhile` do not cross an element failing the predicate. -/
theorem takeWhile_append_of_exists (p : Char → Bool) :
    ∀ a b : List Char, (∃ x ∈ a, p x = false) →
      (a ++ b).takeWhile p = a.takeWhile p ∧
      (a ++ b).dropWhile p = a.dropWhile p ++ b := by
  intro a
  induction a with
  | nil =>
    intro b h
    obtain ⟨x, hx, _⟩ := h
    simp at hx
  | cons c rest ih =>
    intro b h
    by_cases hc : p c = true
    · have hrest : ∃ x ∈ rest, p x = false := by
        obtain ⟨x, hx, hpx⟩ := h
        rcases List.mem_cons.mp hx with rfl | hxr
        · rw [hc] at hpx; exact absurd hpx (by simp)
        · exact ⟨x, hxr, hpx⟩
      obtain ⟨ht, hd⟩ := ih b hrest
      constructor
      · rw [List.cons_append, List.takeWhile_cons_of_pos hc,
          List.takeWhile_cons_of_pos hc, ht]
      · rw [List.cons_append, List.dropWhile_cons_of_pos hc,
          List.dropWhile_cons_of_pos hc, hd]
    · constructor
      · rw [List.cons_append, List.takeWhile_cons_of_neg hc,
          List.takeWhile_cons_of_neg hc]
      · rw [List.cons_append, List.dropWhile_cons_of_neg hc,
          List.dropWhile_cons_of_neg hc]
        rfl

/-- A list with an element failing the predicate does not drop to nothing. -/
theorem dropWhile_ne_nil_of_exists (p : Char → Bool) :
    ∀ a : List Char, (∃ x ∈ a, p x = false) → a.dropWhile p ≠ [] := by
  intro a
  induction a with
  | nil =>
    intro h
    obtain ⟨x, hx, _⟩ := h
    simp at hx
  | cons c rest ih =>
    intro h
    by_cases hc : p c = true
    · have hrest : ∃ x ∈ rest, p x = false := by
        obtain ⟨x, hx, hpx⟩ := h
        rcases List.mem_cons.mp hx with rfl | hxr
        · rw [hc] at hpx; exact absurd hpx (by simp)
        · exact ⟨x, hxr, hpx⟩
      rw [List.dropWhile_cons_of_pos hc]
      exact ih hrest
    · rw [List.dropWhile_cons_of_neg hc]
      simp

/-- The head of an append is the head of a non-empty left part. -/
theorem head?_append_left (a b : List Char) (h : a ≠ []) :
    (a ++ b).head? = a.head? := by
  cases a with
  | nil => exact absurd rfl h
  | cons x t => rfl

/-- The last element of a non-empty list is a member. -/
theorem mem_of_getLast?_eq : ∀ l : List Char, ∀ a : Char,
    l.getLast? = some a → a ∈ l := by
  intro l a h
  have hne : l ≠ [] := by
    intro hn; subst hn; simp at h
  rw [List.getLast?_eq_getLast l hne] at h
  rw [← Option.some.inj h]
  exact List.getLast_mem hne

/-- Scanning a concatenation whose left part ends in a non-digit character
splits into scanning the parts, the right scan starting with the left
part's last character as predecessor. -/
theorem hindiSubGo_split : ∀ n : Nat, ∀ l m : List Char, ∀ prev, l.length ≤ n →
    (∃ cEnd, l.getLast? = some cEnd ∧ cEnd.isDigit = false) →
    hindiSubGo (l.length + m.length) prev (l ++ m)
      = hindiSubGo l.length prev l ++ hindiSubGo m.length l.getLast? m := by
  intro n
  induction n using Nat.strong_induction_on with
  | _ n ih =>
    intro l m prev hln hlast
    obtain ⟨cEnd, hcEnd, hcEndD⟩ := hlast
    match l with
    | [] => simp at hcEnd
    | c :: rest =>
      rw [show (c :: rest).length + m.length = (rest.length + m.length) + 1 from by
        simp only [List.length_cons]; omega]
      rw [List.cons_append]
      simp only [hindiSubGo, List.length_cons]
      split
      · rename_i h1
        have hc : c.isDigit = true := by
          simp only [Bool.and_eq_true] at h1
          exact h1.1
        have hrne : rest ≠ [] := by
          intro hr
          subst hr
          rw [List.getLast?_singleton] at hcEnd
          have hce : c = cEnd := Option.some.inj hcEnd
          rw [← hce, hc] at hcEndD
          simp at hcEndD
        have hrl : rest.getLast? = some cEnd := by
          match rest, hrne with
          | d :: t, _ =>
            rw [List.getLast?_cons_cons] at hcEnd
            exact hcEnd
        have hmem : cEnd ∈ rest := mem_of_getLast?_eq rest cEnd hrl
        have hwit : ∃ x ∈ rest, Char.isDigit x = false := ⟨cEnd, hmem, hcEndD⟩
        have htw : (rest ++ m).takeWhile Char.isDigit = rest.takeWhile Char.isDigit :=
          (takeWhile_append_of_exists Char.isDigit rest m hwit).1
        have hdw : (rest ++ m).dropWhile Char.isDigit
            = rest.dropWhile Char.isDigit ++ m :=
          (takeWhile_append_of_exists Char.isDigit rest m hwit).2
        have hane : rest.dropWhile Char.isDigit ≠ [] :=
          dropWhile_ne_nil_of_exists Char.isDigit rest hwit
        have hal : (rest.dropWhile Char.isDigit).getLast? = some cEnd := by
          rw [← hrl]
          have hdec : rest.takeWhile Char.isDigit ++ rest.dropWhile Char.isDigit
              = rest := List.takeWhile_append_dropWhile Char.isDigit rest
          rw [show rest.getLast? = (rest.takeWhile Char.isDigit
              ++ rest.dropWhile Char.isDigit).getLast? from by rw [hdec]]
          exact (List.getLast?_append_of_ne_nil _ hane).symm
        have hall : ((rest.dropWhile Char.isDigit).length) ≤ rest.length :=
          (List.dropWhile_sublist _).length_le
        simp only [List.takeWhile_cons_of_pos hc, List.dropWhile_cons_of_pos hc,
          htw, hdw]
        rw [head?_append_left _ m hane]
        split
        · rw [List.append_assoc]
          congr 1
          have hfixL : hindiSubGo (rest.length + m.length)
              (c :: rest.takeWhile Char.isDigit).getLast?
              (rest.dropWhile Char.isDigit ++ m)
              = hindiSubGo ((rest.dropWhile Char.isDigit).length + m.length)
                (c :: rest.takeWhile Char.isDigit).getLast?
                (rest.dropWhile Char.isDigit ++ m) := by
            rw [hindiSubGo_fuel (rest.length + m.length) _ _
                (by rw [List.length_append]; omega),
              hindiSubGo_fuel ((rest.dropWhile Char.isDigit).length + m.length) _ _
                (by rw [List.length_append])]
          have hfixR : hindiSubGo rest.length
              (c :: rest.takeWhile Char.isDigit).getLast?
              (rest.dropWhile Char.isDigit)
              = hindiSubGo ((rest.dropWhile Char.isDigit).length)
                (c :: rest.takeWhile Char.isDigit).getLast?
                (rest.dropWhile Char.isDigit) :=
            hindiSubGo_fuel rest.length _ _ hall
          rw [hfixL, hfixR]
          rw [ih (rest.dropWhile Char.isDigit).length
            (by simp only [List.length_cons] at hln; omega)
            (rest.dropWhile Char.isDigit) m
            ((c :: rest.takeWhile Char.isDigit).getLast?)
            (le_refl _) ⟨cEnd, hal, hcEndD⟩]
          rw [hal]
          rw [show (c :: rest).getLast? = rest.getLast? from by
            match rest, hrne with
            | d :: t, _ => exact List.getLast?_cons_cons]
          rw [hrl]
        · rw [List.append_assoc]
          congr 1
          have hfixL : hindiSubGo (rest.length + m.length)
              (c :: rest.takeWhile Char.isDigit).getLast?
              (rest.dropWhile Char.isDigit ++ m)
              = hindiSubGo ((rest.dropWhile Char.isDigit).length + m.length)
                (c :: rest.takeWhile Char.isDigit).getLast?
                (rest.dropWhile Char.isDigit ++ m) := by
            rw [hindiSubGo_fuel (rest.length + m.length) _ _
                (by rw [List.length_append]; omega),
              hindiSubGo_fuel ((rest.dropWhile Char.isDigit).length + m.length) _ _
                (by rw [List.length_append])]
          have hfixR : hindiSubGo rest.length
              (c :: rest.takeWhile Char.isDigit).getLast?
              (rest.dropWhile Char.isDigit)
              = hindiSubGo ((rest.dropWhile Char.isDigit).length)
                (c :: rest.takeWhile Char.isDigit).getLast?
                (rest.dropWhile Char.isDigit) :=
            hindiSubGo_fuel rest.length _ _ hall
          rw [hfixL, hfixR]
          rw [ih (rest.dropWhile Char.isDigit).length
            (by simp only [List.length_cons] at hln; omega)
            (rest.dropWhile Char.isDigit) m
            ((c :: rest.takeWhile Char.isDigit).getLast?)
            (le_refl _) ⟨cEnd, hal, hcEndD⟩]
          rw [hal]
          rw [show (c :: rest).getLast? = rest.getLast? from by
            match rest, hrne with
            | d :: t, _ => exact List.getLast?_cons_cons]
          rw [hrl]
      · cases hrest0 : rest with
        | nil =>
          subst hrest0
          rw [List.getLast?_singleton]
          simp [hindiSubGo]
        | cons d t =>
          have hrl : rest.getLast? = some cEnd := by
            rw [hrest0] at hcEnd ⊢
            rw [List.getLast?_cons_cons] at hcEnd
            exact hcEnd
          rw [← hrest0]
          have hih := ih rest.length
            (by simp only [List.length_cons] at hln; omega)
            rest m (some c) (le_refl _) ⟨cEnd, hrl, hcEndD⟩
          rw [hih]
          rw [show (c :: rest).getLast? = rest.getLast? from by
            rw [hrest0]; exact List.getLast?_cons_cons]
          rw [List.cons_append]

/-- A non-word character is not a digit. -/
theorem not_digit_of_not_word {c : Char} (h : isWordChar c = false) :
    c.isDigit = false := by
  cases hd : c.isDigit
  · rfl
  · rw [isWordChar_of_isDigit hd] at h
    simp at h

/-- `takeWhile`/`dropWhile` over an append whose left part satisfies the
predicate throughout and whose right part starts with a failure. -/
theorem takeWhile_append_all (p : Char → Bool) : ∀ a b : List Char,
    (∀ c ∈ a, p c = true) →
    (b = [] ∨ ∃ cb, b.head? = some cb ∧ p cb = false) →
    (a ++ b).takeWhile p = a ∧ (a ++ b).dropWhile p = b := by
  intro a
  induction a with
  | nil =>
    intro b _ hb
    rcases hb with rfl | ⟨cb, hcb, hpb⟩
    · exact ⟨rfl, rfl⟩
    · match b, hcb with
      | x :: t, hcb =>
        have hx : x = cb := by injection hcb
        subst hx
        rw [List.nil_append]
        exact ⟨List.takeWhile_cons_of_neg (by simp [hpb]),
          List.dropWhile_cons_of_neg (by simp [hpb])⟩
  | cons c rest ih =>
    intro b ha hb
    have hc : p c = true := ha c (by simp)
    obtain ⟨ht, hd⟩ := ih b (fun x hx => ha x (by simp [hx])) hb
    constructor
    · rw [List.cons_append, List.takeWhile_cons_of_pos hc, ht]
    · rw [List.cons_append, List.dropWhile_cons_of_pos hc, hd]

/-- The scan's behaviour does not depend on the predecessor character when
the input is empty or starts with a non-digit. -/
theorem hindiSubGo_prev_irrel : ∀ fuel : Nat, ∀ r : List Char, ∀ p1 p2 : Option Char,
    (r = [] ∨ ∃ cr, r.head? = some cr ∧ cr.isDigit = false) →
    hindiSubGo fuel p1 r = hindiSubGo fuel p2 r := by
  intro fuel r p1 p2 h
  match fuel, r with
  | 0, r => rfl
  | f + 1, [] => rfl
  | f + 1, c :: t =>
    have hcd : c.isDigit = false := by
      rcases h with h | ⟨cr, hh, hd⟩
      · simp at h
      · have : c = cr := by injection hh
        rw [this]
        exact hd
    simp only [hindiSubGo]
    rw [if_neg (by simp [hcd]), if_neg (by simp [hcd])]

/-- One standalone digit run of length one to three at the front of the
scan, with a non-word predecessor and a non-word (or absent) successor, is
replaced by `replace_number` and the scan continues after it. -/
theorem hindiSubGo_run (ds r : List Char) (prev : Option Char)
    (hprev : (match prev with | some p => isWordChar p | none => false) = false)
    (hne : ds ≠ []) (h3 : ds.length ≤ 3) (hdig : ∀ c ∈ ds, c.isDigit = true)
    (hr : r = [] ∨ ∃ cr, r.head? = some cr ∧ isWordChar cr = false) :
    hindiSubGo (ds ++ r).length prev (ds ++ r)
      = replaceNumber ds ++ hindiSubGo r.length ds.getLast? r := by
  have hrd : r = [] ∨ ∃ cr, r.head? = some cr ∧ Char.isDigit cr = false := by
    rcases hr with rfl | ⟨cr, hcr, hw⟩
    · exact Or.inl rfl
    · exact Or.inr ⟨cr, hcr, not_digit_of_not_word hw⟩
  match ds, hne with
  | c :: dt, _ =>
    have hcdig : c.isDigit = true := hdig c (by simp)
    have hdt : ∀ x ∈ dt, Char.isDigit x = true := fun x hx => hdig x (by simp [hx])
    obtain ⟨htw, hdw⟩ := takeWhile_append_all Char.isDigit dt r hdt hrd
    rw [List.cons_append]
    rw [show (c :: (dt ++ r)).length = (dt ++ r).length + 1 from by
      simp only [List.length_cons]]
    simp only [hindiSubGo]
    rw [if_pos (by simp [hcdig, hprev])]
    simp only [List.takeWhile_cons_of_pos hcdig, List.dropWhile_cons_of_pos hcdig,
      htw, hdw]
    rw [if_pos ?hcond]
    case hcond =>
      rw [Bool.and_eq_true]
      constructor
      · simp only [decide_eq_true_eq]
        exact h3
      · rcases hr with rfl | ⟨cr, hcr, hw⟩
        · simp
        · rw [hcr]
          simp [hw]
    · rw [hindiSubGo_fuel ((dt ++ r).length) r _ (by
        rw [List.length_append]; omega)]

/-- Standalone digit runs are rewritten compositionally: a run of one to
three digits whose neighbours are not word characters is replaced by its
word form, while the surrounding text is itself scanned unchanged. -/
theorem convert_standalone (l ds r : List Char)
    (hl : l = [] ∨ ∃ cl, l.getLast? = some cl ∧ isWordChar cl = false)
    (hr : r = [] ∨ ∃ cr, r.head? = some cr ∧ isWordChar cr = false)
    (hne : ds ≠ []) (h3 : ds.length ≤ 3) (hdig : ∀ c ∈ ds, c.isDigit = true) :
    convertNumbersToHindiWords (l ++ ds ++ r)
      = convertNumbersToHindiWords l ++ replaceNumber ds
        ++ convertNumbersToHindiWords r := by
  have hrd : r = [] ∨ ∃ cr, r.head? = some cr ∧ Char.isDigit cr = false := by
    rcases hr with rfl | ⟨cr, hcr, hw⟩
    · exact Or.inl rfl
    · exact Or.inr ⟨cr, hcr, not_digit_of_not_word hw⟩
  unfold convertNumbersToHindiWords
  rcases hl with rfl | ⟨cl, hcl, hwl⟩
  · rw [show ([] : List Char) ++ ds ++ r = ds ++ r from by simp]
    rw [hindiSubGo_run ds r none rfl hne h3 hdig hr]
    rw [hindiSubGo_prev_irrel r.length r ds.getLast? none hrd]
    rfl
  · have hcld : cl.isDigit = false := not_digit_of_not_word hwl
    rw [List.append_assoc]
    rw [show (l ++ (ds ++ r)).length = l.length + (ds ++ r).length from
      List.length_append _ _]
    rw [hindiSubGo_split l.length l (ds ++ r) none (le_refl _) ⟨cl, hcl, hcld⟩]
    rw [hindiSubGo_run ds r l.getLast? ?hp hne h3 hdig hr]
    case hp => rw [hcl]; simp [hwl]
    rw [hindiSubGo_prev_irrel r.length r ds.getLast? none hrd]
    rw [List.append_assoc]

/-- The `HINDI_NUMBERS` table covers exactly the values 0–100. -/
theorem hindiNumberWord_isSome : ∀ n, n ≤ 100 → (hindiNumberWord n).isSome = true := by
  decide

/-- No table entry exists above 100. -/
theorem hindiNumberWord_none {n : Nat} (h : 100 < n) : hindiNumberWord n = none := by
  obtain ⟨m, rfl⟩ : ∃ m, n = m + 101 := ⟨n - 101, by omega⟩
  rfl

/-- Digit runs of value at most 100 map to their table word. -/
theorem replaceNumber_table (ds : List Char) (h : digitsToNat ds ≤ 100) :
    replaceNumber ds = ((hindiNumberWord (digitsToNat ds)).getD "").toList := by
  obtain ⟨w, hw⟩ := Option.isSome_iff_exists.mp (hindiNumberWord_isSome (digitsToNat ds) h)
  unfold replaceNumber
  simp only [hw, Option.getD_some]

/-- Digit runs of value 101–999 decompose as hundreds word, `सौ`, and the
remainder word when the remainder is non-zero. -/
theorem replaceNumber_decomposition (ds : List Char) (h1 : 100 < digitsToNat ds)
    (h2 : digitsToNat ds < 1000) :
    replaceNumber ds
      = ((hindiNumberWord (digitsToNat ds / 100)).getD (toString (digitsToNat ds / 100))
          ++ " " ++ "सौ"
          ++ (if digitsToNat ds % 100 = 0 then ""
              else " " ++ (hindiNumberWord (digitsToNat ds % 100)).getD
                  (toString (digitsToNat ds % 100)))).toList := by
  unfold replaceNumber
  simp only [hindiNumberWord_none h1]
  rw [if_pos h2]
  rw [if_pos (by omega : digitsToNat ds / 100 > 0)]
  by_cases hr : digitsToNat ds % 100 = 0
  · rw [if_neg (by omega : ¬ (digitsToNat ds % 100 > 0)), if_pos hr]
    rw [List.append_nil]
    rw [show ((hindiNumberWord (digitsToNat ds / 100)).getD
          (toString (digitsToNat ds / 100)) ++ " " ++ "सौ" ++ "")
        = ((hindiNumberWord (digitsToNat ds / 100)).getD
          (toString (digitsToNat ds / 100)) ++ " " ++ "सौ") from by simp]
    rfl
  · rw [if_pos (by omega : digitsToNat ds % 100 > 0), if_neg hr]
    have hx : ∀ a b : String, (a ++ " " ++ "सौ" ++ (" " ++ b)).toList
        = (a ++ " " ++ "सौ" ++ " " ++ b).toList := by
      intro a b
      simp
    rw [hx]
    rfl

/-- C10 (confirmed): before Edge-TTS synthesis, texts with language "hi" —
and only those — are rewritten by `convert_numbers_to_hindi_words`: every
standalone decimal run of one to three digits (neighbours not word
characters) is replaced in place by `replace_number`, which maps values
0–100 through the fixed word table and decomposes values 101–999 into the
hundreds word, `सौ`, and the remainder word when the remainder is
non-zero; the surrounding text is preserved (itself scanned the same way)
and other languages pass through unchanged. -/
theorem C10_hindi_number_rewriting :
    (∀ language : String, ∀ text, language ≠ "hi" →
      edgeTtsPreprocess language text = text) ∧
    (∀ text, edgeTtsPreprocess "hi" text = convertNumbersToHindiWords text) ∧
    (∀ l ds r : List Char,
      (l = [] ∨ ∃ cl, l.getLast? = some cl ∧ isWordChar cl = false) →
      (r = [] ∨ ∃ cr, r.head? = some cr ∧ isWordChar cr = false) →
      ds ≠ [] → ds.length ≤ 3 → (∀ c ∈ ds, c.isDigit = true) →
      convertNumbersToHindiWords (l ++ ds ++ r)
        = convertNumbersToHindiWords l ++ replaceNumber ds
          ++ convertNumbersToHindiWords r) ∧
    (∀ ds : List Char, digitsToNat ds ≤ 100 →
      replaceNumber ds = ((hindiNumberWord (digitsToNat ds)).getD "").toList) ∧
    (∀ ds : List Char, 100 < digitsToNat ds → digitsToNat ds < 1000 →
      replaceNumber ds
        = ((hindiNumberWord (digitsToNat ds / 100)).getD
              (toString (digitsToNat ds / 100))
            ++ " " ++ "सौ"
            ++ (if digitsToNat ds % 100 = 0 then ""
                else " " ++ (hindiNumberWord (digitsToNat ds % 100)).getD
                    (toString (digitsToNat ds % 100)))).toList) := by
  refine ⟨?_, fun text => rfl, convert_standalone, replaceNumber_table,
    replaceNumber_decomposition⟩
  intro language text h
  unfold edgeTtsPreprocess
  rw [if_neg h]

/-- Witness for C10: Telugu text passes through; the standalone run "250"
inside a Hindi sentence is replaced in place; value mappings at 57 and
250. -/
theorem C10_hindi_number_rewriting_witness :
    edgeTtsPreprocess "te" "abc 12".toList = "abc 12".toList ∧
    convertNumbersToHindiWords ("mere paas ".toList ++ "250".toList ++ " rupaye".toList)
      = convertNumbersToHindiWords "mere paas ".toList ++ replaceNumber "250".toList
        ++ convertNumbersToHindiWords " rupaye".toList ∧
    replaceNumber "57".toList
      = ((hindiNumberWord (digitsToNat "57".toList)).getD "").toList ∧
    replaceNumber "250".toList
      = ((hindiNumberWord (digitsToNat "250".toList / 100)).getD
            (toString (digitsToNat "250".toList / 100))
          ++ " " ++ "सौ"
          ++ (if digitsToNat "250".toList % 100 = 0 then ""
              else " " ++ (hindiNumberWord (digitsToNat "250".toList % 100)).getD
                  (toString (digitsToNat "250".toList % 100)))).toList :=
  ⟨C10_hindi_number_rewriting.1 "te" "abc 12".toList (by decide),
   C10_hindi_number_rewriting.2.2.1 "mere paas ".toList "250".toList " rupaye".toList
     (Or.inr ⟨' ', by decide, by decide⟩) (Or.inr ⟨' ', by decide, by decide⟩)
     (by decide) (by decide) (by decide),
   C10_hindi_number_rewriting.2.2.2.1 "57".toList (by decide),
   C10_hindi_number_rewriting.2.2.2.2 "250".toList (by decide) (by decide)⟩

end Pipeline
